import Mathlib

set_option maxRecDepth 8000
set_option maxHeartbeats 1000000

/-!
Shallow embedding of the world-reward generation/verification pipeline
(`src/worldreward` and `src/worldbench`) and proofs about its contracts:
reward computation, score aggregation, scenario validation and id
assignment, the video-generation launch/poll pipeline, the verifier's
upload/processing loop, and markdown-fence-tolerant JSON response parsing.
-/

namespace WorldReward

/-! ## Data model (`models.py`)

`RewardScore` is the ternary reward enum: CORRECT = 1, UNDETERMINED = 0,
INCORRECT = -1. -/

inductive RewardScore where
  | CORRECT
  | UNDETERMINED
  | INCORRECT
deriving DecidableEq, Repr

/-- The integer payload of the `RewardScore` enum member (`reward.value`). -/
def RewardScore.value : RewardScore → Int
  | .CORRECT => 1
  | .UNDETERMINED => 0
  | .INCORRECT => -1

/-- `VerificationResult` dataclass: outcome of judging one rendered video
against one scenario. -/
structure VerificationResult where
  scenario_id : String
  category : String
  verification_question : String
  expected_answer : String
  vlm_answer : String
  vlm_reasoning : String
  reward : RewardScore
  video_path : String
deriving DecidableEq, Repr

/-! ## Reward computation (`verifier.py`, `_compute_reward`) -/

/-- Python `str.lower()`, modelled characterwise. -/
def pyLower (s : String) : String :=
  String.mk (s.data.map Char.toLower)

/-- `_compute_reward(vlm_answer, expected_answer)`:
if the VLM answer is "undetermined" return UNDETERMINED; else CORRECT when
it equals the lowercased expected answer, otherwise INCORRECT. -/
def computeReward (vlm_answer : String) (expected_answer : String) : RewardScore :=
  if vlm_answer = "undetermined" then RewardScore.UNDETERMINED
  else if vlm_answer = pyLower expected_answer then RewardScore.CORRECT
  else RewardScore.INCORRECT

/-- C1: the reward is UNDETERMINED iff the VLM answer is "undetermined";
otherwise it is CORRECT iff the VLM answer equals the lowercased expected
answer, and INCORRECT in every other case. -/
theorem computeReward_spec (vlm expected : String) :
    (computeReward vlm expected = RewardScore.UNDETERMINED ↔ vlm = "undetermined")
    ∧ (vlm ≠ "undetermined" →
        (computeReward vlm expected = RewardScore.CORRECT ↔ vlm = pyLower expected))
    ∧ (vlm ≠ "undetermined" → vlm ≠ pyLower expected →
        computeReward vlm expected = RewardScore.INCORRECT) := by
  unfold computeReward
  by_cases h1 : vlm = "undetermined" <;> by_cases h2 : vlm = pyLower expected <;>
    simp [h1, h2]

/-- Witness for C1 at concrete inputs. -/
theorem computeReward_spec_witness :
    computeReward "no" "Yes" = RewardScore.INCORRECT :=
  (computeReward_spec "no" "Yes").2.2 (by decide) (by decide)

/-! ## Scorer (`scorer.py`, `_print_category_score` / `_print_overall_score`)

Both functions compute, over their result list: counts of CORRECT /
INCORRECT / UNDETERMINED rewards, `total_reward = sum(r.reward.value)`,
`evaluable = correct + incorrect`, and
`accuracy = (correct / evaluable * 100) if evaluable > 0 else 0.0`,
printed with the `.0f` format (round to nearest, ties to even). -/

/-- `sum(1 for r in results if r.reward == RewardScore.CORRECT)`. -/
def numCorrect (results : List VerificationResult) : Nat :=
  (results.filter (fun r => r.reward = RewardScore.CORRECT)).length

/-- `sum(1 for r in results if r.reward == RewardScore.INCORRECT)`. -/
def numIncorrect (results : List VerificationResult) : Nat :=
  (results.filter (fun r => r.reward = RewardScore.INCORRECT)).length

/-- `sum(1 for r in results if r.reward == RewardScore.UNDETERMINED)`. -/
def numUndetermined (results : List VerificationResult) : Nat :=
  (results.filter (fun r => r.reward = RewardScore.UNDETERMINED)).length

/-- `total_reward = sum(r.reward.value for r in results)`. -/
def totalReward (results : List VerificationResult) : Int :=
  (results.map (fun r => r.reward.value)).sum

/-- `evaluable = correct + incorrect`. -/
def evaluable (results : List VerificationResult) : Nat :=
  numCorrect results + numIncorrect results

/-- `accuracy = (correct / evaluable * 100) if evaluable > 0 else 0.0`,
as an exact rational. -/
def accuracy (results : List VerificationResult) : ℚ :=
  if evaluable results > 0 then
    (numCorrect results : ℚ) / (evaluable results : ℚ) * 100
  else 0

/-- The group `by_category[cat]` built by `print_score_report`:
results whose `category` equals `cat`, in order. -/
def byCategory (cat : String) (results : List VerificationResult) :
    List VerificationResult :=
  results.filter (fun r => r.category = cat)

/-- Floor of a rational, computed from its reduced fraction. -/
def ratFloor (q : ℚ) : Int :=
  Int.fdiv q.num (q.den : Int)

/-- The `f"{accuracy:.0f}"` format: round to the nearest integer,
ties to even. -/
def pyRound0f (q : ℚ) : Int :=
  if q - (ratFloor q : ℚ) < 1/2 then ratFloor q
  else if 1/2 < q - (ratFloor q : ℚ) then ratFloor q + 1
  else if ratFloor q % 2 = 0 then ratFloor q else ratFloor q + 1

/-- Sum decomposition of `totalReward`: the reward-value sum is the
CORRECT count minus the INCORRECT count. -/
theorem totalReward_eq_counts (results : List VerificationResult) :
    totalReward results = (numCorrect results : Int) - (numIncorrect results : Int) := by
  induction results with
  | nil => rfl
  | cons r rs ih =>
      have h1 : totalReward (r :: rs) = r.reward.value + totalReward rs := by
        simp [totalReward]
      rw [h1, ih]
      cases h : r.reward <;>
        simp [numCorrect, numIncorrect, List.filter_cons, h, RewardScore.value] <;>
        omega

/-- The code's `accuracy` expression equals the spec's guarded ratio. -/
theorem accuracy_formula (rs : List VerificationResult) :
    accuracy rs =
      if evaluable rs = 0 then 0
      else 100 * ((numCorrect rs : ℚ)
        / ((numCorrect rs : ℚ) + (numIncorrect rs : ℚ))) := by
  unfold accuracy evaluable
  by_cases h : numCorrect rs + numIncorrect rs = 0
  · simp [h]
  · have hpos : 0 < numCorrect rs + numIncorrect rs := Nat.pos_of_ne_zero h
    rw [if_pos hpos, if_neg h]
    push_cast
    ring

/-- C6: overall and per-category, the scorer's accuracy equals
`CORRECT / (CORRECT + INCORRECT)` (as a percentage) with UNDETERMINED
excluded from the denominator, is 0 when there are no evaluable results,
and the total reward is the sum of reward values, which equals
`#CORRECT - #INCORRECT`. -/
theorem scorer_spec (results : List VerificationResult) (cat : String) :
    (accuracy results =
      if evaluable results = 0 then 0
      else 100 * ((numCorrect results : ℚ) /
        ((numCorrect results : ℚ) + (numIncorrect results : ℚ))))
    ∧ (accuracy (byCategory cat results) =
      if evaluable (byCategory cat results) = 0 then 0
      else 100 * ((numCorrect (byCategory cat results) : ℚ) /
        ((numCorrect (byCategory cat results) : ℚ)
          + (numIncorrect (byCategory cat results) : ℚ))))
    ∧ totalReward results
        = (numCorrect results : Int) - (numIncorrect results : Int) :=
  ⟨accuracy_formula results, accuracy_formula (byCategory cat results),
    totalReward_eq_counts results⟩

/-- A concrete result list with rewards CORRECT, CORRECT, INCORRECT,
UNDETERMINED in one category. -/
def sampleResults : List VerificationResult :=
  [ { scenario_id := "AD-001", category := "collisions",
      verification_question := "Does the car stop?", expected_answer := "yes",
      vlm_answer := "yes", vlm_reasoning := "It stops.",
      reward := RewardScore.CORRECT, video_path := "videos/AD-001.mp4" },
    { scenario_id := "AD-002", category := "collisions",
      verification_question := "Does the glass break?", expected_answer := "yes",
      vlm_answer := "yes", vlm_reasoning := "It breaks.",
      reward := RewardScore.CORRECT, video_path := "videos/AD-002.mp4" },
    { scenario_id := "AD-003", category := "collisions",
      verification_question := "Does the ball bounce?", expected_answer := "no",
      vlm_answer := "yes", vlm_reasoning := "It bounces.",
      reward := RewardScore.INCORRECT, video_path := "videos/AD-003.mp4" },
    { scenario_id := "AD-004", category := "collisions",
      verification_question := "Does the box tip over?", expected_answer := "yes",
      vlm_answer := "undetermined", vlm_reasoning := "Not visible.",
      reward := RewardScore.UNDETERMINED, video_path := "videos/AD-004.mp4" } ]

/-- On the sample list, the exact accuracy value is 200/3. -/
theorem accuracy_sampleResults : accuracy sampleResults = 200/3 := by
  have h1 : evaluable sampleResults = 3 := by decide
  have h2 : numCorrect sampleResults = 2 := by decide
  rw [accuracy, h1, h2]
  norm_num

/-- The rounded `.0f` rendering of 200/3 is 67. -/
theorem pyRound0f_two_thirds : pyRound0f (200/3 : ℚ) = 67 := by
  have hf : ratFloor (200/3 : ℚ) = 66 := by
    norm_num [ratFloor]
    decide
  simp only [pyRound0f, hf]
  norm_num

/-- C7 counterexample: on 2 CORRECT, 1 INCORRECT, 1 UNDETERMINED the
reported (rounded) accuracy is not 66. -/
theorem scorer_sample_not_66 :
    pyRound0f (accuracy sampleResults) ≠ 66 := by
  rw [accuracy_sampleResults, pyRound0f_two_thirds]
  decide

/-- C7 (amended): on 2 CORRECT, 1 INCORRECT, 1 UNDETERMINED the scorer
reports evaluable = 3, rounded accuracy = 67, and total reward = 1. -/
theorem scorer_sample_spec :
    evaluable sampleResults = 3
    ∧ pyRound0f (accuracy sampleResults) = 67
    ∧ totalReward sampleResults = 1 := by
  refine ⟨by decide, ?_, by decide⟩
  rw [accuracy_sampleResults, pyRound0f_two_thirds]

/-! ## Scenario generation (`generator.py`, `_parse_raw_scenarios`)

Raw records are JSON objects with string values; a field is `none` when
the key is absent. `Scenario(...)` construction raises `KeyError` on a
missing required key (`raw["..."]`) and `ValueError` when
`Confidence(raw.get("confidence", "medium").lower())` is not one of the
enum values; both are caught and the record is dropped. -/

inductive Confidence where
  | HIGH
  | MEDIUM
  | LOW
deriving DecidableEq, Repr

/-- The `Confidence(value)` enum lookup: `ValueError` (here `none`)
unless the value is "high", "medium" or "low". -/
def Confidence.ofString : String → Option Confidence
  | "high" => some Confidence.HIGH
  | "medium" => some Confidence.MEDIUM
  | "low" => some Confidence.LOW
  | _ => none

/-- `Scenario` dataclass (validated record). -/
structure Scenario where
  scenario_id : String
  category : String
  world_prompt : String
  action : String
  verification_question : String
  expected_answer : String
  confidence : Confidence
  video_prompt : String
deriving DecidableEq, Repr

/-- A raw scenario record from the parsed JSON response: each key either
absent (`none`) or bound to a string. -/
structure RawScenario where
  category : Option String
  world_prompt : Option String
  action : Option String
  verification_question : Option String
  expected_answer : Option String
  confidence : Option String
  video_prompt : Option String
deriving DecidableEq, Repr

/-- `f"{idx:03d}"`: decimal rendering zero-padded to width 3. -/
def pad3 (n : Nat) : String :=
  if n < 10 then "00" ++ toString n
  else if n < 100 then "0" ++ toString n
  else toString n

/-- One iteration of the `_parse_raw_scenarios` loop body: build a
`Scenario` from `raw` with id `f"{config.id_prefix}-{idx:03d}"`;
`none` when a required key is missing (`KeyError`) or the confidence
value is not a `Confidence` member (`ValueError`). -/
def parseRawScenario (pfx : String) (idx : Nat) (raw : RawScenario) :
    Option Scenario :=
  match raw.category, raw.world_prompt, raw.action,
      raw.verification_question, raw.expected_answer with
  | some cat, some wp, some act, some vq, some ea =>
      match Confidence.ofString (pyLower (raw.confidence.getD "medium")) with
      | some conf =>
          some { scenario_id := pfx ++ "-" ++ pad3 idx,
                 category := cat,
                 world_prompt := wp,
                 action := act,
                 verification_question := vq,
                 expected_answer := pyLower ea,
                 confidence := conf,
                 video_prompt := raw.video_prompt.getD "" }
      | none => none
  | _, _, _, _, _ => none

/-- The `for idx, raw in enumerate(raw_scenarios, start=1)` loop of
`_parse_raw_scenarios`: the index advances for every raw record,
validated or not; failed records are skipped. -/
def parseRawScenariosFrom (pfx : String) :
    Nat → List RawScenario → List Scenario
  | _, [] => []
  | idx, raw :: rest =>
      match parseRawScenario pfx idx raw with
      | some s => s :: parseRawScenariosFrom pfx (idx + 1) rest
      | none => parseRawScenariosFrom pfx (idx + 1) rest

/-- `_parse_raw_scenarios(raw_scenarios, config)`: enumerate from 1. -/
def parseRawScenarios (pfx : String) (raws : List RawScenario) :
    List Scenario :=
  parseRawScenariosFrom pfx 1 raws

/-- The validation predicate the loop body implements: all five required
keys present and the (defaulted, lowercased) confidence a valid member. -/
def rawValid (raw : RawScenario) : Bool :=
  raw.category.isSome && raw.world_prompt.isSome && raw.action.isSome &&
  raw.verification_question.isSome && raw.expected_answer.isSome &&
  (Confidence.ofString (pyLower (raw.confidence.getD "medium"))).isSome

/-- A record is kept exactly when `rawValid` holds. -/
theorem parseRawScenario_isSome (pfx : String) (idx : Nat)
    (raw : RawScenario) :
    (parseRawScenario pfx idx raw).isSome = rawValid raw := by
  obtain ⟨c, w, a, q, e, cf, v⟩ := raw
  unfold parseRawScenario rawValid
  cases c <;> cases w <;> cases a <;> cases q <;> cases e <;>
    simp <;>
    cases Confidence.ofString (pyLower (Option.getD cf "medium")) <;> simp

/-- A kept record's id records the raw enumeration index. -/
theorem parseRawScenario_id (pfx : String) (idx : Nat)
    (raw : RawScenario) (s : Scenario)
    (h : parseRawScenario pfx idx raw = some s) :
    s.scenario_id = pfx ++ "-" ++ pad3 idx := by
  obtain ⟨c, w, a, q, e, cf, v⟩ := raw
  cases c <;> cases w <;> cases a <;> cases q <;> cases e <;>
    cases hcf : Confidence.ofString (pyLower (Option.getD cf "medium")) <;>
    simp [parseRawScenario, hcf] at h <;>
    subst h <;> rfl

/-- The `Confidence` lookup succeeds exactly on the three member values. -/
theorem Confidence.ofString_isSome (s : String) :
    (Confidence.ofString s).isSome ↔
      (s = "high" ∨ s = "medium" ∨ s = "low") := by
  unfold Confidence.ofString
  split <;> simp_all

/-- The loop keeps one scenario per valid raw record, independent of the
start index. -/
theorem parseRawScenariosFrom_length (p : String) (raws : List RawScenario) :
    ∀ start, (parseRawScenariosFrom p start raws).length
      = (raws.filter rawValid).length := by
  induction raws with
  | nil => intro start; rfl
  | cons r rest ih =>
      intro start
      cases hp : parseRawScenario p start r with
      | some s =>
          have hv : rawValid r = true := by
            rw [← parseRawScenario_isSome p start r, hp]; rfl
          simp [parseRawScenariosFrom, hp, List.filter_cons, hv, ih]
      | none =>
          have hv : rawValid r = false := by
            rw [← parseRawScenario_isSome p start r, hp]; rfl
          simp [parseRawScenariosFrom, hp, List.filter_cons, hv, ih]

/-- The ids produced by the loop are the raw enumeration positions of the
valid records, formatted `{prefix}-{idx:03d}`. -/
theorem parseRawScenariosFrom_ids (p : String) (raws : List RawScenario) :
    ∀ start, (parseRawScenariosFrom p start raws).map (fun s => s.scenario_id)
      = ((List.enumFrom start raws).filter (fun x => rawValid x.2)).map
          (fun x => p ++ "-" ++ pad3 x.1) := by
  induction raws with
  | nil => intro start; rfl
  | cons r rest ih =>
      intro start
      cases hp : parseRawScenario p start r with
      | some s =>
          have hv : rawValid r = true := by
            rw [← parseRawScenario_isSome p start r, hp]; rfl
          simp [parseRawScenariosFrom, hp, List.enumFrom, List.filter_cons, hv,
            ih, parseRawScenario_id p start r s hp]
      | none =>
          have hv : rawValid r = false := by
            rw [← parseRawScenario_isSome p start r, hp]; rfl
          simp [parseRawScenariosFrom, hp, List.enumFrom, List.filter_cons, hv, ih]

/-- A raw record with no `world_prompt` key never validates. -/
theorem rawValid_of_world_prompt_none (raw : RawScenario)
    (h : raw.world_prompt = none) : rawValid raw = false := by
  unfold rawValid
  rw [h]
  simp

/-- Filtering a list in which exactly one position fails the predicate
drops exactly one element. -/
theorem filter_length_of_single_failure {α} (p : α → Bool) (l : List α)
    (i : Nat) (hi : i < l.length) (hfail : p l[i] = false)
    (hrest : ∀ (j : Nat) (hj : j < l.length), j ≠ i → p l[j] = true) :
    (l.filter p).length = l.length - 1 := by
  induction l generalizing i with
  | nil => exact absurd hi (by simp)
  | cons r rest ih =>
      cases i with
      | zero =>
          simp only [List.getElem_cons_zero] at hfail
          have hall : rest.filter p = rest := by
            rw [List.filter_eq_self]
            intro a ha
            obtain ⟨j, hj, rfl⟩ := List.mem_iff_getElem.mp ha
            have := hrest (j + 1) (by simpa using Nat.succ_lt_succ hj) (by omega)
            simpa using this
          simp [List.filter_cons, hfail, hall]
      | succ k =>
          have hk : k < rest.length := by simpa using Nat.lt_of_succ_lt_succ hi
          have hr : p r = true := by
            have := hrest 0 (by simp) (by omega)
            simpa using this
          have hfail' : p rest[k] = false := by
            simpa using hfail
          have hrest' : ∀ (j : Nat) (hj : j < rest.length), j ≠ k →
              p rest[j] = true := by
            intro j hj hne
            have := hrest (j + 1) (by simpa using Nat.succ_lt_succ hj) (by omega)
            simpa using this
          have := ih k hk hfail' hrest'
          simp only [List.filter_cons, hr, if_pos, List.length_cons]
          simp [this]
          omega

/-- C9: if exactly one raw record is missing `world_prompt` and every
other record validates, the validated output has one fewer element than
the input and the run completes (the bad record is merely dropped). -/
theorem missing_world_prompt_dropped (p : String) (raws : List RawScenario)
    (i : Nat) (hi : i < raws.length)
    (hmiss : raws[i].world_prompt = none)
    (hvalid : ∀ (j : Nat) (hj : j < raws.length), j ≠ i →
      rawValid raws[j] = true) :
    (parseRawScenarios p raws).length = raws.length - 1 := by
  rw [parseRawScenarios, parseRawScenariosFrom_length]
  exact filter_length_of_single_failure rawValid raws i hi
    (rawValid_of_world_prompt_none _ hmiss) hvalid

/-- A raw record missing only the `world_prompt` key. -/
def rawMissingWorld : RawScenario :=
  { category := some "cars", world_prompt := none, action := some "brakes",
    verification_question := some "Does it stop?",
    expected_answer := some "yes", confidence := some "high",
    video_prompt := some "a car braking" }

/-- A fully-populated raw record. -/
def rawComplete : RawScenario :=
  { category := some "cars", world_prompt := some "a wet road",
    action := some "brakes",
    verification_question := some "Does it stop?",
    expected_answer := some "yes", confidence := some "high",
    video_prompt := some "a car braking" }

/-- Witness for C9 at a concrete three-record input. -/
theorem missing_world_prompt_dropped_witness :
    (parseRawScenarios "AD" [rawComplete, rawMissingWorld, rawComplete]).length
      = 2 :=
  missing_world_prompt_dropped "AD" [rawComplete, rawMissingWorld, rawComplete]
    1 (by decide) (by decide)
    (by
      intro j hj hne
      have h3 : j < 3 := by simpa using hj
      rcases j with _ | _ | _ | j
      · show rawValid rawComplete = true
        decide
      · omega
      · show rawValid rawComplete = true
        decide
      · omega)

/-- C4 counterexample: with an invalid first raw record, the first
validated scenario is assigned id "AD-002", not "AD-001" — dropped
records do consume an id slot. -/
theorem scenarioIds_counterexample :
    (parseRawScenarios "AD" [rawMissingWorld, rawComplete]).map
        (fun s => s.scenario_id) = ["AD-002"]
    ∧ ("AD-002" : String) ≠ "AD-001" := by
  constructor
  · decide
  · decide

/-- C4 (amended): scenario ids record the 1-based position of the record
in the raw input sequence — `{pfx}-{index:03d}` over
`enumerate(raw_scenarios, start=1)` — so records that fail validation do
consume an id slot and validated ids need not be contiguous. -/
theorem scenarioIds_raw_position (pfx : String)
    (raws : List RawScenario) :
    (parseRawScenarios pfx raws).map (fun s => s.scenario_id)
      = ((List.enumFrom 1 raws).filter (fun x => rawValid x.2)).map
          (fun x => pfx ++ "-" ++ pad3 x.1) :=
  parseRawScenariosFrom_ids pfx raws 1

/-- C10: a record is dropped exactly when one of the five required keys
is missing or the (defaulted, lowercased) confidence value is not
"high"/"medium"/"low"; a missing confidence key defaults to "medium"
(hence never causes a drop) and a missing video_prompt key defaults to
the empty string (and never causes a drop). -/
theorem raw_record_drop_conditions (p : String) (idx : Nat)
    (raw : RawScenario) :
    ((parseRawScenario p idx raw).isSome ↔
      (raw.category.isSome ∧ raw.world_prompt.isSome ∧ raw.action.isSome ∧
        raw.verification_question.isSome ∧ raw.expected_answer.isSome ∧
        (pyLower (raw.confidence.getD "medium") = "high"
          ∨ pyLower (raw.confidence.getD "medium") = "medium"
          ∨ pyLower (raw.confidence.getD "medium") = "low")))
    ∧ (raw.confidence = none →
        pyLower (raw.confidence.getD "medium") = "medium")
    ∧ (∀ s, parseRawScenario p idx raw = some s →
        (raw.confidence = none → s.confidence = Confidence.MEDIUM)
        ∧ (raw.video_prompt = none → s.video_prompt = "")) := by
  refine ⟨?_, ?_, ?_⟩
  · rw [show (parseRawScenario p idx raw).isSome = rawValid raw from
      parseRawScenario_isSome p idx raw]
    simp [rawValid, Bool.and_eq_true, Confidence.ofString_isSome]
    tauto
  · intro h
    rw [h]
    decide
  · intro s hs
    obtain ⟨c, w, a, q, e, cf, v⟩ := raw
    cases c <;> cases w <;> cases a <;> cases q <;> cases e <;>
      cases hcf : Confidence.ofString (pyLower (Option.getD cf "medium")) <;>
      simp [parseRawScenario, hcf] at hs <;> subst hs
    constructor
    · rintro rfl
      have hm : Confidence.ofString
          (pyLower (Option.getD (none : Option String) "medium"))
          = some Confidence.MEDIUM := by decide
      rw [hm] at hcf
      simp only [Option.some.injEq] at hcf
      simp [hcf]
    · rintro rfl
      rfl

/-- A raw record with all required keys and no confidence/video_prompt. -/
def rawDefaults : RawScenario :=
  { category := some "cars", world_prompt := some "a wet road",
    action := some "brakes",
    verification_question := some "Does it stop?",
    expected_answer := some "yes", confidence := none,
    video_prompt := none }

/-- The scenario built from `rawDefaults` at index 1 with prefix "AD". -/
def scenarioDefaults : Scenario :=
  { scenario_id := "AD-001", category := "cars",
    world_prompt := "a wet road", action := "brakes",
    verification_question := "Does it stop?", expected_answer := "yes",
    confidence := Confidence.MEDIUM, video_prompt := "" }

/-- Witness for C10 at a concrete record with defaulted fields. -/
theorem raw_record_drop_conditions_witness :
    scenarioDefaults.confidence = Confidence.MEDIUM
    ∧ scenarioDefaults.video_prompt = "" :=
  ⟨((raw_record_drop_conditions "AD" 1 rawDefaults).2.2 scenarioDefaults
      (by decide)).1 rfl,
   ((raw_record_drop_conditions "AD" 1 rawDefaults).2.2 scenarioDefaults
      (by decide)).2 rfl⟩

/-! ## Video generation pipeline (`video_generator.py`,
`VideoGenerator.generate_from_dataset`)

Phase 1 launches one asynchronous render per scenario that has a
non-empty `video_prompt` and no existing output file; phase 2 polls all
pending operations each tick until every one is done. Remote calls are
oracles; the embedding counts `generate_videos` (launch) and
`operations.get` (poll) invocations. The poll loop carries no elapsed
ceiling in the source, so it is modelled with fuel: `none` means the
`while` loop was still running when the fuel ran out. -/

/-- One CSV row as used by the pipeline: `scenario["scenario_id"]` and
`scenario.get("video_prompt", "")`. -/
structure ScenarioRow where
  scenario_id : String
  video_prompt : String
deriving DecidableEq, Repr

/-- One entry of the returned result list. -/
structure VideoResult where
  scenario_id : String
  video_path : String
deriving DecidableEq, Repr

/-- `_PendingVideo` dataclass: an in-flight render operation. -/
structure PendingVideo (Op : Type) where
  scenario_id : String
  operation : Op
  output_path : String
  done : Bool := false
  error : Option String := none

/-- The remote-service and filesystem oracles the pipeline calls. -/
structure VideoEnv (Op : Type) where
  fileExists : String → Bool
  launch : String → Except String Op
  poll : Op → Except String Op
  opDone : Op → Bool
  save : Op → Except String Unit

/-- `output_dir / f"{scenario_id}.mp4"`. -/
def videoPath (output_dir scenario_id : String) : String :=
  output_dir ++ "/" ++ scenario_id ++ ".mp4"

/-- Phase 1: iterate scenarios once; skip empty prompts; record existing
outputs as results without launching; otherwise launch, recording a
pending operation on success and an empty-path result on failure.
Returns (results, pending, number of launch calls). -/
def launchPhase {Op : Type} (env : VideoEnv Op) (output_dir : String) :
    List ScenarioRow → List VideoResult × List (PendingVideo Op) × Nat
  | [] => ([], [], 0)
  | s :: rest =>
      if s.video_prompt = "" then launchPhase env output_dir rest
      else
        let path := videoPath output_dir s.scenario_id
        if env.fileExists path then
          let (rs, ps, n) := launchPhase env output_dir rest
          ({ scenario_id := s.scenario_id, video_path := path } :: rs, ps, n)
        else
          match env.launch s.video_prompt with
          | Except.ok op =>
              let (rs, ps, n) := launchPhase env output_dir rest
              (rs, { scenario_id := s.scenario_id, operation := op,
                     output_path := path } :: ps, n + 1)
          | Except.error _ =>
              let (rs, ps, n) := launchPhase env output_dir rest
              ({ scenario_id := s.scenario_id, video_path := "" } :: rs,
                ps, n + 1)

/-- One tick of phase 2: for each still-pending operation re-fetch
status; on fetch failure mark done with the error; if complete, save and
mark done (a save failure records its error). Returns the updated list
and the number of `operations.get` calls made. -/
def pollSweep {Op : Type} (env : VideoEnv Op) :
    List (PendingVideo Op) → List (PendingVideo Op) × Nat
  | [] => ([], 0)
  | p :: rest =>
      let (rest', n) := pollSweep env rest
      if p.done then (p :: rest', n)
      else
        match env.poll p.operation with
        | Except.error e =>
            ({ p with done := true, error := some e } :: rest', n + 1)
        | Except.ok op' =>
            if env.opDone op' then
              match env.save op' with
              | Except.ok _ =>
                  ({ p with operation := op', done := true } :: rest', n + 1)
              | Except.error e =>
                  ({ p with operation := op',
                             done := true,
                             error := some e } :: rest', n + 1)
            else ({ p with operation := op' } :: rest', n + 1)

/-- The `while any(not p.done for p in pending)` loop, with fuel: `none`
when the loop is still running after `fuel` ticks. Also returns the
total number of poll calls made. -/
def pollLoop {Op : Type} (env : VideoEnv Op) :
    Nat → List (PendingVideo Op) → Option (List (PendingVideo Op)) × Nat
  | 0, pending => if pending.all (fun p => p.done) then (some pending, 0)
      else (none, 0)
  | fuel + 1, pending =>
      if pending.all (fun p => p.done) then (some pending, 0)
      else
        let (pending', n) := pollSweep env pending
        let (res, m) := pollLoop env fuel pending'
        (res, n + m)

/-- `generate_from_dataset`: phase 1, early return when nothing is
pending, phase 2, then fold pending outcomes into the result list
(`"" if p.error else str(p.output_path)`; a falsy — absent or empty —
error string counts as success). Returns (results when the poll loop
terminated, launch calls, poll calls). -/
def generateFromDataset {Op : Type} (env : VideoEnv Op) (fuel : Nat)
    (output_dir : String) (scenarios : List ScenarioRow) :
    Option (List VideoResult) × Nat × Nat :=
  let (results, pending, launches) := launchPhase env output_dir scenarios
  if pending.isEmpty then (some results, launches, 0)
  else
    match pollLoop env fuel pending with
    | (none, polls) => (none, launches, polls)
    | (some finalPending, polls) =>
        (some (results ++ finalPending.map (fun p =>
          { scenario_id := p.scenario_id,
            video_path := if p.error.getD "" = "" then p.output_path
              else "" })), launches, polls)

/-- A path built by `videoPath` is never the empty string. -/
theorem videoPath_ne_empty (output_dir scenario_id : String) :
    videoPath output_dir scenario_id ≠ "" := by
  intro h
  have hlen := congrArg String.length h
  rw [videoPath, String.length_append, String.length_append,
    String.length_append] at hlen
  have h1 : ("/" : String).length = 1 := rfl
  have h4 : (".mp4" : String).length = 4 := rfl
  have h0 : ("" : String).length = 0 := rfl
  rw [h1, h4, h0] at hlen
  omega

/-- Under the all-outputs-exist hypothesis, phase 1 launches nothing,
leaves nothing pending, and every recorded path is non-empty. -/
theorem launchPhase_all_exist {Op : Type} (env : VideoEnv Op)
    (output_dir : String) (scenarios : List ScenarioRow)
    (h : ∀ s ∈ scenarios, s.video_prompt ≠ "" →
      env.fileExists (videoPath output_dir s.scenario_id) = true) :
    (launchPhase env output_dir scenarios).2.1 = []
    ∧ (launchPhase env output_dir scenarios).2.2 = 0
    ∧ ∀ r ∈ (launchPhase env output_dir scenarios).1, r.video_path ≠ "" := by
  induction scenarios with
  | nil => simp [launchPhase]
  | cons s rest ih =>
      have hrest := ih (fun t ht => h t (List.mem_cons_of_mem s ht))
      by_cases hp : s.video_prompt = ""
      · simpa [launchPhase, hp] using hrest
      · have hex := h s (List.mem_cons_self s rest) hp
        simp only [launchPhase, if_neg hp, hex, if_pos]
        refine ⟨hrest.1, hrest.2.1, ?_⟩
        intro r hr
        rcases List.mem_cons.mp hr with rfl | hr'
        · exact videoPath_ne_empty output_dir s.scenario_id
        · exact hrest.2.2 r hr'

/-- C5: when every scenario with a non-empty video prompt already has an
existing output file, the pipeline performs zero launch calls and zero
poll calls and returns a result list whose every `video_path` is
non-empty, for any fuel. -/
theorem generate_idempotent {Op : Type} (env : VideoEnv Op) (fuel : Nat)
    (output_dir : String) (scenarios : List ScenarioRow)
    (h : ∀ s ∈ scenarios, s.video_prompt ≠ "" →
      env.fileExists (videoPath output_dir s.scenario_id) = true) :
    (generateFromDataset env fuel output_dir scenarios).2.1 = 0
    ∧ (generateFromDataset env fuel output_dir scenarios).2.2 = 0
    ∧ ∃ rs, (generateFromDataset env fuel output_dir scenarios).1 = some rs
        ∧ ∀ r ∈ rs, r.video_path ≠ "" := by
  obtain ⟨hpend, hlaunch, hpaths⟩ :=
    launchPhase_all_exist env output_dir scenarios h
  rcases hEq : launchPhase env output_dir scenarios with ⟨rs, ps, n⟩
  rw [hEq] at hpend hlaunch hpaths
  dsimp only at hpend hlaunch hpaths
  subst hpend
  subst hlaunch
  unfold generateFromDataset
  rw [hEq]
  exact ⟨rfl, rfl, rs, rfl, hpaths⟩

/-- An environment whose filesystem reports every output as existing. -/
def allExistEnv : VideoEnv Unit :=
  { fileExists := fun _ => true,
    launch := fun _ => Except.error "unreachable",
    poll := fun _ => Except.error "unreachable",
    opDone := fun _ => false,
    save := fun _ => Except.ok () }

/-- Witness for C5 on a concrete one-scenario dataset. -/
theorem generate_idempotent_witness :
    (generateFromDataset allExistEnv 5 "videos"
        [{ scenario_id := "AD-001", video_prompt := "a car braking" }]).2.1 = 0
    ∧ (generateFromDataset allExistEnv 5 "videos"
        [{ scenario_id := "AD-001", video_prompt := "a car braking" }]).2.2 = 0
    ∧ ∃ rs, (generateFromDataset allExistEnv 5 "videos"
          [{ scenario_id := "AD-001", video_prompt := "a car braking" }]).1
        = some rs ∧ ∀ r ∈ rs, r.video_path ≠ "" :=
  generate_idempotent allExistEnv 5 "videos"
    [{ scenario_id := "AD-001", video_prompt := "a car braking" }]
    (fun _ _ _ => rfl)

/-! ## JSON response parsing (`gemini_client.py`, `_parse_json_response`)

`_parse_json_response` strips surrounding whitespace (`text.strip()`),
removes an optional markdown code fence (drop the first line, drop every
line whose `strip()` is exactly three backticks, rejoin with newlines),
then runs `json.loads` and requires a top-level array.

`json.loads` is modelled by a fuel-based recursive-descent parser over
`List Char` following the `json` module's grammar: values are objects,
arrays, strings (with escape validation, raw control characters
rejected), numbers (`-?(0|[1-9]\d*)(\.\d+)?([eE][+-]?\d+)?`), `true`,
`false`, `null` and the non-standard constants `NaN`, `Infinity`,
`-Infinity`; whitespace (space, tab, newline, carriage return) is
allowed around tokens. `loads` tolerates whitespace around the document,
modelled by trimming it before the exact-consumption parse. -/

/-- JSON whitespace: the characters `json.decoder.WHITESPACE` skips. -/
def isJsonWs (c : Char) : Bool :=
  c = ' ' || c = '\t' || c = '\n' || c = '\r'

/-- Whitespace removed by Python `str.strip()` (ASCII range). -/
def isPyWs (c : Char) : Bool :=
  c = ' ' || c = '\t' || c = '\n' || c = '\r' || c = '\x0b' || c = '\x0c' ||
  c = '\x1c' || c = '\x1d' || c = '\x1e' || c = '\x1f' || c = '\x85' ||
  c = '\xa0'

/-- Python `s.split("\n")` on character lists: split on every newline,
keeping empty pieces. -/
def splitLines : List Char → List (List Char)
  | [] => [[]]
  | c :: cs =>
      if c = '\n' then [] :: splitLines cs
      else
        match splitLines cs with
        | [] => [[c]]
        | line :: rest => (c :: line) :: rest

/-- Python `"\n".join(lines)` on character lists. -/
def joinLines : List (List Char) → List Char
  | [] => []
  | [l] => l
  | l :: ls => l ++ '\n' :: joinLines ls

/-- Python `str.strip()` on a character list: drop leading and trailing
whitespace. -/
def pyStripL (l : List Char) : List Char :=
  ((l.dropWhile isPyWs).reverse.dropWhile isPyWs).reverse

/-- Python `str.strip()`. -/
def pyStrip (s : String) : String :=
  String.mk (pyStripL s.data)

/-- `str.strip()` of one line, for the fence filter. -/
def pyTrim (l : List Char) : List Char :=
  pyStripL l

/-- Drop leading JSON whitespace (`WHITESPACE.match(...).end()`). -/
def skipJsonWs (l : List Char) : List Char :=
  l.dropWhile isJsonWs

/-- Trim JSON whitespace from both ends of the document. -/
def jsonTrim (l : List Char) : List Char :=
  ((l.dropWhile isJsonWs).reverse.dropWhile isJsonWs).reverse

/-- The JSON value tree produced by `json.loads`. Numbers keep their
source token; strings keep their raw (escape-unexpanded) contents. -/
inductive Json where
  | null
  | bool (b : Bool)
  | num (tok : String)
  | str (raw : String)
  | arr (items : List Json)
  | obj (fields : List (String × Json))

/-- `True` for a valid one-character string escape (`\" \\ \/ \b \f \n
\r \t`). -/
def isSimpleEscape (c : Char) : Bool :=
  c = '"' || c = '\\' || c = '/' || c = 'b' || c = 'f' || c = 'n' ||
  c = 'r' || c = 't'

/-- Hexadecimal digit test for `\uXXXX` escapes. -/
def isHexDigit (c : Char) : Bool :=
  c.isDigit || ('a' ≤ c && c ≤ 'f') || ('A' ≤ c && c ≤ 'F')

/-- `py_scanstring`: scan a string body after the opening quote up to
the closing quote. Raw control characters (including newlines) are
rejected, escapes are validated; returns the raw contents and the rest
after the closing quote. -/
def scanString : List Char → Option (List Char × List Char)
  | [] => none
  | c :: cs =>
      if c = '"' then some ([], cs)
      else if c = '\\' then
        match cs with
        | [] => none
        | 'u' :: h1 :: h2 :: h3 :: h4 :: cs4 =>
            if isHexDigit h1 && isHexDigit h2 && isHexDigit h3 &&
                isHexDigit h4 then
              match scanString cs4 with
              | some (raw, rest) =>
                  some ('\\' :: 'u' :: h1 :: h2 :: h3 :: h4 :: raw, rest)
              | none => none
            else none
        | e :: cs' =>
            if isSimpleEscape e then
              match scanString cs' with
              | some (raw, rest) => some ('\\' :: e :: raw, rest)
              | none => none
            else none
      else if c.val < 32 then none
      else
        match scanString cs with
        | some (raw, rest) => some (c :: raw, rest)
        | none => none

/-- Maximal digit prefix. -/
def scanDigits : List Char → List Char × List Char
  | [] => ([], [])
  | c :: cs =>
      if c.isDigit then
        let (d, r) := scanDigits cs
        (c :: d, r)
      else ([], c :: cs)

/-- The integer part of the number grammar: `0` or a nonzero digit
followed by digits. -/
def parseIntPart : List Char → Option (List Char × List Char)
  | [] => none
  | c :: cs =>
      if c = '0' then some ([c], cs)
      else if c.isDigit then
        let (d, r) := scanDigits cs
        some (c :: d, r)
      else none

/-- The optional fraction part: `.` followed by at least one digit, or
nothing consumed. -/
def parseFrac : List Char → List Char × List Char
  | c :: d :: cs =>
      if c = '.' && d.isDigit then
        let (ds, r) := scanDigits (d :: cs)
        ('.' :: ds, r)
      else ([], c :: d :: cs)
  | l => ([], l)

/-- The optional exponent part: `e`/`E`, optional sign, at least one
digit, or nothing consumed. -/
def parseExp : List Char → List Char × List Char
  | e :: s :: d :: cs =>
      if (e = 'e' || e = 'E') && (s = '+' || s = '-') && d.isDigit then
        let (ds, r) := scanDigits (d :: cs)
        (e :: s :: ds, r)
      else if (e = 'e' || e = 'E') && s.isDigit then
        let (ds, r) := scanDigits (s :: d :: cs)
        (e :: ds, r)
      else ([], e :: s :: d :: cs)
  | [e, s] =>
      if (e = 'e' || e = 'E') && s.isDigit then ([e, s], [])
      else ([], [e, s])
  | l => ([], l)

mutual

/-- `scan_once`: parse one JSON value at the current position. -/
def parseValue : Nat → List Char → Option (Json × List Char)
  | 0, _ => none
  | Nat.succ fuel, l =>
      match l with
      | [] => none
      | c :: cs =>
          if c = '"' then
            match scanString cs with
            | some (raw, rest) => some (Json.str (String.mk raw), rest)
            | none => none
          else if c = '[' then
            match skipJsonWs cs with
            | ']' :: rest => some (Json.arr [], rest)
            | l1 =>
                match parseItems fuel l1 with
                | some (items, rest) => some (Json.arr items, rest)
                | none => none
          else if c = '{' then
            match skipJsonWs cs with
            | '}' :: rest => some (Json.obj [], rest)
            | l1 =>
                match parseFields fuel l1 with
                | some (fs, rest) => some (Json.obj fs, rest)
                | none => none
          else if c = 't' then
            match cs with
            | 'r' :: 'u' :: 'e' :: rest => some (Json.bool true, rest)
            | _ => none
          else if c = 'f' then
            match cs with
            | 'a' :: 'l' :: 's' :: 'e' :: rest => some (Json.bool false, rest)
            | _ => none
          else if c = 'n' then
            match cs with
            | 'u' :: 'l' :: 'l' :: rest => some (Json.null, rest)
            | _ => none
          else if c = 'N' then
            match cs with
            | 'a' :: 'N' :: rest => some (Json.num "NaN", rest)
            | _ => none
          else if c = 'I' then
            match cs with
            | 'n' :: 'f' :: 'i' :: 'n' :: 'i' :: 't' :: 'y' :: rest =>
                some (Json.num "Infinity", rest)
            | _ => none
          else if c = '-' then
            match cs with
            | 'I' :: 'n' :: 'f' :: 'i' :: 'n' :: 'i' :: 't' :: 'y' :: rest =>
                some (Json.num "-Infinity", rest)
            | _ =>
                match parseIntPart cs with
                | some (ip, r1) =>
                    let (fp, r2) := parseFrac r1
                    let (ep, r3) := parseExp r2
                    some (Json.num (String.mk ('-' :: (ip ++ fp ++ ep))), r3)
                | none => none
          else
            match parseIntPart (c :: cs) with
            | some (ip, r1) =>
                let (fp, r2) := parseFrac r1
                let (ep, r3) := parseExp r2
                some (Json.num (String.mk (ip ++ fp ++ ep)), r3)
            | none => none

/-- `JSONArray` elements: value, then `,` and more elements or `]`. -/
def parseItems : Nat → List Char → Option (List Json × List Char)
  | 0, _ => none
  | Nat.succ fuel, l =>
      match parseValue fuel l with
      | none => none
      | some (v, r1) =>
          match skipJsonWs r1 with
          | ',' :: r2 =>
              match parseItems fuel (skipJsonWs r2) with
              | some (vs, rest) => some (v :: vs, rest)
              | none => none
          | ']' :: rest => some ([v], rest)
          | _ => none

/-- `JSONObject` members: quoted key, `:`, value, then `,` and more
members or `}`. -/
def parseFields : Nat → List Char →
    Option (List (String × Json) × List Char)
  | 0, _ => none
  | Nat.succ fuel, l =>
      match l with
      | '"' :: cs =>
          match scanString cs with
          | none => none
          | some (raw, r1) =>
              match skipJsonWs r1 with
              | ':' :: r2 =>
                  match parseValue fuel (skipJsonWs r2) with
                  | none => none
                  | some (v, r3) =>
                      match skipJsonWs r3 with
                      | ',' :: r4 =>
                          match parseFields fuel (skipJsonWs r4) with
                          | some (fs, rest) =>
                              some ((String.mk raw, v) :: fs, rest)
                          | none => none
                      | '}' :: rest => some ([(String.mk raw, v)], rest)
                      | _ => none
              | _ => none
      | _ => none

end

/-- `json.loads` on a character list: parse exactly one value with
surrounding whitespace tolerated (modelled by trimming it, noting a
parsed value never ends in whitespace). -/
def jsonLoadsL (l : List Char) : Option Json :=
  let u := jsonTrim l
  match parseValue (2 * u.length + 2) u with
  | some (v, []) => some v
  | _ => none

/-- `json.loads`. -/
def jsonLoads (s : String) : Option Json :=
  jsonLoadsL s.data

/-- The fence-stripping statement block of `_parse_json_response`:
`lines = cleaned.split("\n")`, drop the first line, drop every line
whose `strip()` is three backticks, rejoin with newlines. -/
def stripFence (l : List Char) : List Char :=
  joinLines (((splitLines l).drop 1).filter
    (fun line => !(pyTrim line == "```".data)))

/-- `_parse_json_response(text)`: strip, remove an optional leading
code fence, `json.loads`, require a top-level array. -/
def parseJsonResponse (text : String) : Except String (List Json) :=
  let stripped := pyStripL text.data
  let cleaned := if "```".data.isPrefixOf stripped then stripFence stripped
    else stripped
  match jsonLoadsL cleaned with
  | none => Except.error "Invalid JSON"
  | some (Json.arr items) => Except.ok items
  | some _ => Except.error "Expected JSON array"

/-- A response wrapped in markdown code fences: a "```json" line before
the text and a "```" line after it. -/
def fenceWrap (t : String) : String :=
  "```json\n" ++ t ++ "\n```"

/-! ### Line-splitting lemmas -/

/-- `splitLines` never returns the empty list. -/
theorem splitLines_ne_nil (l : List Char) : splitLines l ≠ [] := by
  cases l with
  | nil => simp [splitLines]
  | cons c cs =>
      unfold splitLines
      by_cases h : c = '\n'
      · simp [h]
      · simp only [h, if_false]
        cases splitLines cs <;> simp

/-- `splitLines` on a leading newline. -/
theorem splitLines_cons_newline (cs : List Char) :
    splitLines ('\n' :: cs) = [] :: splitLines cs := by
  simp [splitLines]

/-- `splitLines` on a leading non-newline character. -/
theorem splitLines_cons_of_ne (c : Char) (cs : List Char)
    (f : List Char) (r : List (List Char)) (h : c ≠ '\n')
    (hs : splitLines cs = f :: r) :
    splitLines (c :: cs) = (c :: f) :: r := by
  unfold splitLines
  rw [if_neg h, hs]

/-- Splitting distributes over an explicit newline. -/
theorem splitLines_append_newline (a b : List Char) :
    splitLines (a ++ '\n' :: b) = splitLines a ++ splitLines b := by
  induction a with
  | nil => simp [splitLines]
  | cons c cs ih =>
      have hstep : (c :: cs) ++ '\n' :: b = c :: (cs ++ '\n' :: b) := rfl
      rw [hstep]
      by_cases h : c = '\n'
      · subst h
        rw [splitLines_cons_newline, splitLines_cons_newline, ih]
        rfl
      · cases hs : splitLines cs with
        | nil => exact absurd hs (splitLines_ne_nil cs)
        | cons f r =>
            have hs' : splitLines (cs ++ '\n' :: b)
                = f :: (r ++ splitLines b) := by
              rw [ih, hs]
              rfl
            rw [splitLines_cons_of_ne c _ _ _ h hs',
              splitLines_cons_of_ne c _ _ _ h hs]
            rfl

/-- Joining undoes splitting. -/
theorem joinLines_splitLines (l : List Char) :
    joinLines (splitLines l) = l := by
  induction l with
  | nil => rfl
  | cons c cs ih =>
      unfold splitLines
      by_cases h : c = '\n'
      · simp only [h, if_pos, if_true]
        cases hs : splitLines cs with
        | nil => exact absurd hs (splitLines_ne_nil cs)
        | cons line rest =>
            rw [hs] at ih
            simpa [joinLines] using ih
      · simp only [h, if_false]
        cases hs : splitLines cs with
        | nil => exact absurd hs (splitLines_ne_nil cs)
        | cons line rest =>
            rw [hs] at ih
            cases rest with
            | nil => simpa [joinLines] using ih
            | cons l2 ls => simpa [joinLines] using ih

/-- Lines contain no newline characters. -/
theorem splitLines_no_newline (l : List Char) :
    ∀ line ∈ splitLines l, '\n' ∉ line := by
  induction l with
  | nil => simp [splitLines]
  | cons c cs ih =>
      unfold splitLines
      by_cases h : c = '\n'
      · simp only [h, if_pos, if_true]
        intro line hline
        rcases List.mem_cons.mp hline with rfl | hmem
        · simp
        · exact ih line hmem
      · simp only [h, if_false]
        cases hs : splitLines cs with
        | nil => exact absurd hs (splitLines_ne_nil cs)
        | cons first rest =>
            intro line hline
            rcases List.mem_cons.mp hline with rfl | hmem
            · intro hc
              rcases List.mem_cons.mp hc with rfl | hc'
              · exact h rfl
              · exact ih first (hs ▸ List.mem_cons_self first rest) hc'
            · exact ih line (hs ▸ List.mem_cons_of_mem first hmem)

/-- The first line is an initial segment of the list, followed by
nothing or a newline. -/
theorem splitLines_head_decomp :
    ∀ (l first : List Char) (rest : List (List Char)),
      splitLines l = first :: rest →
      ∃ suf, l = first ++ suf ∧ (suf = [] ∨ ∃ s', suf = '\n' :: s') := by
  intro l
  induction l with
  | nil =>
      intro first rest h
      simp [splitLines] at h
      exact ⟨[], by simp [h.1], Or.inl rfl⟩
  | cons c cs ih =>
      intro first rest h
      unfold splitLines at h
      by_cases hc : c = '\n'
      · simp only [hc, if_pos, if_true] at h
        obtain ⟨rfl, _⟩ := List.cons.injEq .. ▸ h
        injection h with h1 h2
        exact ⟨'\n' :: cs, by simp [← h1, hc], Or.inr ⟨cs, rfl⟩⟩
      · simp only [hc, if_false] at h
        cases hs : splitLines cs with
        | nil => exact absurd hs (splitLines_ne_nil cs)
        | cons f' r' =>
            rw [hs] at h
            injection h with h1 h2
            obtain ⟨suf, hsuf, hcond⟩ := ih f' r' hs
            exact ⟨suf, by simp [← h1, hsuf], hcond⟩

/-- Every line sits inside the original list at its position: the first
line has nothing before it, every later line is preceded by material
ending in a newline, and every non-final line is followed by a
newline. -/
theorem splitLines_get_decomp :
    ∀ (l : List Char) (i : Nat) (h : i < (splitLines l).length),
      ∃ pre suf, l = pre ++ (splitLines l).get ⟨i, h⟩ ++ suf
      ∧ (i = 0 → pre = [])
      ∧ (i ≠ 0 → ∃ p', pre = p' ++ ['\n'])
      ∧ (suf = [] ∨ ∃ s', suf = '\n' :: s') := by
  intro l
  induction l with
  | nil =>
      intro i h
      simp [splitLines] at h
      subst h
      exact ⟨[], [], by simp [splitLines], fun _ => rfl,
        fun hne => absurd rfl hne, Or.inl rfl⟩
  | cons c cs ih =>
      intro i h
      by_cases hc : c = '\n'
      · have hsp : splitLines (c :: cs) = [] :: splitLines cs := by
          simp [splitLines, hc]
        cases i with
        | zero =>
            refine ⟨[], '\n' :: cs, ?_, fun _ => rfl,
              fun hne => absurd rfl hne, Or.inr ⟨cs, rfl⟩⟩
            have : (splitLines (c :: cs)).get ⟨0, h⟩ = [] := by
              simp [hsp]
            rw [this]
            simp [hc]
        | succ k =>
            have hk : k < (splitLines cs).length := by
              have := h
              rw [hsp] at this
              simpa using this
            obtain ⟨pre, suf, heq, hpre0, hpreS, hsuf⟩ := ih k hk
            refine ⟨'\n' :: pre, suf, ?_, by simp,
              fun _ => ?_, hsuf⟩
            · have : (splitLines (c :: cs)).get ⟨k + 1, h⟩
                  = (splitLines cs).get ⟨k, hk⟩ := by
                simp [hsp]
              rw [this]
              conv_lhs => rw [heq]
              simp [hc]
            · by_cases hk0 : k = 0
              · rw [hpre0 hk0]
                exact ⟨[], rfl⟩
              · obtain ⟨p', rfl⟩ := hpreS hk0
                exact ⟨'\n' :: p', rfl⟩
      · cases hs : splitLines cs with
        | nil => exact absurd hs (splitLines_ne_nil cs)
        | cons f' r' =>
            have hsp : splitLines (c :: cs) = (c :: f') :: r' := by
              unfold splitLines
              simp only [hc, if_false, hs]
            cases i with
            | zero =>
                obtain ⟨suf, hsuf, hcond⟩ := splitLines_head_decomp cs f' r' hs
                refine ⟨[], suf, ?_, fun _ => rfl,
                  fun hne => absurd rfl hne, hcond⟩
                have : (splitLines (c :: cs)).get ⟨0, h⟩ = c :: f' := by
                  simp [hsp]
                rw [this]
                simp [hsuf]
            | succ k =>
                have hk : k + 1 < (splitLines cs).length := by
                  have := h
                  rw [hsp] at this
                  simp at this
                  rw [hs]
                  simpa using this
                obtain ⟨pre, suf, heq, _, hpreS, hsuf⟩ := ih (k + 1) hk
                obtain ⟨p', rfl⟩ := hpreS (by omega)
                refine ⟨c :: (p' ++ ['\n']), suf, ?_, by simp,
                  fun _ => ⟨c :: p', by simp⟩, hsuf⟩
                have : (splitLines (c :: cs)).get ⟨k + 1, h⟩
                    = (splitLines cs).get ⟨k + 1, hk⟩ := by
                  simp [hsp, hs]
                rw [this]
                conv_lhs => rw [heq]
                simp

/-- Membership form of `splitLines_get_decomp`. -/
theorem splitLines_mem_decomp (l : List Char) (line : List Char)
    (hline : line ∈ splitLines l) :
    ∃ pre suf, l = pre ++ line ++ suf
      ∧ (pre = [] ∨ ∃ p', pre = p' ++ ['\n'])
      ∧ (suf = [] ∨ ∃ s', suf = '\n' :: s') := by
  obtain ⟨⟨i, hi⟩, rfl⟩ := List.mem_iff_get.mp hline
  obtain ⟨pre, suf, heq, hpre0, hpreS, hsuf⟩ := splitLines_get_decomp l i hi
  refine ⟨pre, suf, heq, ?_, hsuf⟩
  by_cases h0 : i = 0
  · exact Or.inl (hpre0 h0)
  · exact Or.inr (hpreS h0)

/-! ### Backtick-guard invariant

Parsed JSON text can contain a backtick only inside a string literal,
and string literals cannot span lines; so every backtick has a double
quote on its own line. This is what protects interior lines of a valid
document from the fence filter. -/

/-- Every backtick occurrence has a double quote on the same line:
a quote before it with no newline in between, or a quote after it with
no newline in between. -/
def backtickGuarded (l : List Char) : Prop :=
  ∀ pre suf, l = pre ++ '`' :: suf →
    (∃ p1 p2, pre = p1 ++ '"' :: p2 ∧ '\n' ∉ p2) ∨
    (∃ s1 s2, suf = s1 ++ '"' :: s2 ∧ '\n' ∉ s1)

/-- Lists without backticks are guarded. -/
theorem backtickGuarded_of_not_mem {l : List Char} (h : '`' ∉ l) :
    backtickGuarded l := by
  intro pre suf heq
  exfalso
  exact h (heq ▸ List.mem_append.mpr (Or.inr (List.mem_cons_self _ _)))

/-- All-whitespace lists are guarded. -/
theorem backtickGuarded_of_all_ws {l : List Char}
    (h : ∀ c ∈ l, isJsonWs c = true) : backtickGuarded l :=
  backtickGuarded_of_not_mem (fun hm => by
    have := h '`' hm
    simp [isJsonWs] at this)

/-- A newline-free list containing a quote is guarded. -/
theorem backtickGuarded_singleline {l : List Char} (hnl : '\n' ∉ l)
    (hq : '"' ∈ l) : backtickGuarded l := by
  intro pre suf heq
  subst heq
  rcases List.mem_append.mp hq with hpre | hsuf
  · obtain ⟨p1, p2, rfl⟩ := List.append_of_mem hpre
    exact Or.inl ⟨p1, p2, rfl, fun hm => hnl (by simp [hm])⟩
  · rcases List.mem_cons.mp hsuf with h' | hsuf'
    · exact absurd h' (by decide)
    · obtain ⟨s1, s2, rfl⟩ := List.append_of_mem hsuf'
      exact Or.inr ⟨s1, s2, rfl, fun hm => hnl (by simp [hm])⟩

/-- Guardedness is closed under concatenation. -/
theorem backtickGuarded_append {a b : List Char} (ha : backtickGuarded a)
    (hb : backtickGuarded b) : backtickGuarded (a ++ b) := by
  intro pre suf heq
  rcases List.append_eq_append_iff.mp heq with ⟨k, hk1, hk2⟩ | ⟨k, hk1, hk2⟩
  · rcases hb k suf hk2 with ⟨p1, p2, hp, hnl⟩ | ⟨s1, s2, hs, hnl⟩
    · subst hk1
      subst hp
      exact Or.inl ⟨a ++ p1, p2, by simp, hnl⟩
    · exact Or.inr ⟨s1, s2, hs, hnl⟩
  · cases k with
    | nil =>
        simp at hk2
        rcases hb [] suf hk2.symm with ⟨p1, p2, hp, _⟩ | ⟨s1, s2, hs, hnl⟩
        · exact absurd hp.symm (by simp)
        · exact Or.inr ⟨s1, s2, hs, hnl⟩
    | cons kc k' =>
        have hkc : kc = '`' ∧ suf = k' ++ b := by
          have := hk2.symm
          simp only [List.cons_append, List.cons.injEq] at this
          exact ⟨this.1, this.2.symm⟩
        obtain ⟨rfl, rfl⟩ := hkc
        rcases ha pre k' (by simpa using hk1) with
          ⟨p1, p2, hp, hnl⟩ | ⟨s1, s2, hs, hnl⟩
        · exact Or.inl ⟨p1, p2, hp, hnl⟩
        · subst hs
          exact Or.inr ⟨s1, s2 ++ b, by simp, hnl⟩

/-! ### Token-level decomposition lemmas -/

/-- `skipJsonWs` drops an all-whitespace prefix. -/
theorem skipJsonWs_decomp (l : List Char) :
    ∃ w, l = w ++ skipJsonWs l ∧ ∀ c ∈ w, isJsonWs c = true :=
  ⟨l.takeWhile isJsonWs, (List.takeWhile_append_dropWhile ..).symm,
    fun _ hc => List.mem_takeWhile_imp hc⟩

/-- `scanDigits` consumes a digit prefix. -/
theorem scanDigits_decomp (l : List Char) :
    l = (scanDigits l).1 ++ (scanDigits l).2
    ∧ ∀ c ∈ (scanDigits l).1, c.isDigit = true := by
  induction l with
  | nil => simp [scanDigits]
  | cons c cs ih =>
      by_cases h : c.isDigit
      · simp only [scanDigits, h, if_pos, if_true]
        refine ⟨by simpa using ih.1, ?_⟩
        intro x hx
        rcases List.mem_cons.mp hx with rfl | hx'
        · exact h
        · exact ih.2 x hx'
      · simp [scanDigits, h]

/-- `parseIntPart` consumes a digit prefix. -/
theorem parseIntPart_decomp (l : List Char) (ip r : List Char)
    (h : parseIntPart l = some (ip, r)) :
    l = ip ++ r ∧ ∀ c ∈ ip, c.isDigit = true := by
  cases l with
  | nil => simp [parseIntPart] at h
  | cons c cs =>
      simp only [parseIntPart] at h
      by_cases h0 : c = '0'
      · rw [if_pos h0] at h
        simp at h
        obtain ⟨rfl, rfl⟩ := h
        exact ⟨rfl, by simp [h0]⟩
      · rw [if_neg h0] at h
        by_cases hd : c.isDigit
        · rw [if_pos hd] at h
          simp at h
          obtain ⟨rfl, rfl⟩ := h
          obtain ⟨hsplit, hdig⟩ := scanDigits_decomp cs
          refine ⟨by simpa using hsplit, ?_⟩
          intro x hx
          rcases List.mem_cons.mp hx with rfl | hx'
          · exact hd
          · exact hdig x hx'
        · rw [if_neg hd] at h
          exact absurd h (by simp)

/-- `parseFrac` consumes a fraction-part prefix of digits and dots. -/
theorem parseFrac_decomp (l : List Char) :
    l = (parseFrac l).1 ++ (parseFrac l).2
    ∧ ∀ c ∈ (parseFrac l).1, c.isDigit = true ∨ c = '.' := by
  match l with
  | [] => simp [parseFrac]
  | [c] => simp [parseFrac]
  | c :: d :: cs =>
      simp only [parseFrac]
      by_cases h : c = '.' ∧ d.isDigit
      · have hb : (c = '.' && d.isDigit) = true := by
          simp [h.1, h.2]
        rw [if_pos hb]
        obtain ⟨hsplit, hdig⟩ := scanDigits_decomp (d :: cs)
        refine ⟨by simpa [h.1] using congrArg (fun t => '.' :: t) hsplit, ?_⟩
        intro x hx
        rcases List.mem_cons.mp hx with rfl | hx'
        · exact Or.inr rfl
        · exact Or.inl (hdig x hx')
      · have hb : (c = '.' && d.isDigit) = false := by
          rcases Decidable.not_and_iff_or_not.mp h with hc | hd
          · simp [hc]
          · simp [hd]
        rw [if_neg (by simp [hb])]
        simp

/-- `parseExp` consumes an exponent-part prefix. -/
theorem parseExp_decomp (l : List Char) :
    l = (parseExp l).1 ++ (parseExp l).2
    ∧ ∀ c ∈ (parseExp l).1,
        c.isDigit = true ∨ c = 'e' ∨ c = 'E' ∨ c = '+' ∨ c = '-' := by
  match l with
  | [] => simp [parseExp]
  | [e] => simp [parseExp]
  | [e, s] =>
      simp only [parseExp]
      by_cases h : (e = 'e' || e = 'E') && s.isDigit
      · rw [if_pos h]
        simp only [Bool.and_eq_true, Bool.or_eq_true, decide_eq_true_eq] at h
        refine ⟨by simp, ?_⟩
        intro x hx
        rcases List.mem_cons.mp hx with rfl | hx'
        · rcases h.1 with rfl | rfl
          · exact Or.inr (Or.inl rfl)
          · exact Or.inr (Or.inr (Or.inl rfl))
        · rcases List.mem_cons.mp hx' with rfl | hx''
          · exact Or.inl h.2
          · simp at hx''
      · rw [if_neg h]
        simp
  | e :: s :: d :: cs =>
      simp only [parseExp]
      by_cases h1 : (e = 'e' || e = 'E') && (s = '+' || s = '-') && d.isDigit
      · rw [if_pos h1]
        simp only [Bool.and_eq_true, Bool.or_eq_true, decide_eq_true_eq] at h1
        obtain ⟨hsplit, hdig⟩ := scanDigits_decomp (d :: cs)
        refine ⟨by simpa using congrArg (fun t => e :: s :: t) hsplit, ?_⟩
        intro x hx
        rcases List.mem_cons.mp hx with rfl | hx'
        · rcases h1.1.1 with rfl | rfl
          · exact Or.inr (Or.inl rfl)
          · exact Or.inr (Or.inr (Or.inl rfl))
        · rcases List.mem_cons.mp hx' with rfl | hx''
          · rcases h1.1.2 with rfl | rfl
            · exact Or.inr (Or.inr (Or.inr (Or.inl rfl)))
            · exact Or.inr (Or.inr (Or.inr (Or.inr rfl)))
          · exact Or.inl (hdig x hx'')
      · rw [if_neg h1]
        by_cases h2 : (e = 'e' || e = 'E') && s.isDigit
        · rw [if_pos h2]
          simp only [Bool.and_eq_true, Bool.or_eq_true, decide_eq_true_eq] at h2
          obtain ⟨hsplit, hdig⟩ := scanDigits_decomp (s :: d :: cs)
          refine ⟨by simpa using congrArg (fun t => e :: t) hsplit, ?_⟩
          intro x hx
          rcases List.mem_cons.mp hx with rfl | hx'
          · rcases h2.1 with rfl | rfl
            · exact Or.inr (Or.inl rfl)
            · exact Or.inr (Or.inr (Or.inl rfl))
          · exact Or.inl (hdig x hx')
        · rw [if_neg h2]
          simp

/-- The chunk consumed by `scanString` (through the closing quote)
contains a double quote and no newline. -/
theorem scanString_split :
    ∀ (n : Nat) (l raw rest : List Char), l.length ≤ n →
      scanString l = some (raw, rest) →
      ∃ c, l = c ++ rest ∧ '\n' ∉ c ∧ '"' ∈ c := by
  intro n
  induction n with
  | zero =>
      intro l raw rest hlen h
      cases l with
      | nil => simp [scanString] at h
      | cons c cs => simp at hlen
  | succ n ih =>
      intro l raw rest hlen h
      cases l with
      | nil => simp [scanString] at h
      | cons c cs =>
          rw [scanString.eq_def] at h
          dsimp only at h
          by_cases hq : c = '"'
          · rw [if_pos hq] at h
            simp only [Option.some.injEq, Prod.mk.injEq] at h
            obtain ⟨_, rfl⟩ := h
            exact ⟨['"'], by simp [hq], by decide, by decide⟩
          · rw [if_neg hq] at h
            by_cases hb : c = '\\'
            · rw [if_pos hb] at h
              split at h
              · exact absurd h (by simp)
              · next _csx x1 x2 x3 x4 t4 =>
                  by_cases hhex : (isHexDigit x1 && isHexDigit x2 &&
                      isHexDigit x3 && isHexDigit x4) = true
                  · rw [if_pos hhex] at h
                    cases hscan : scanString t4 with
                    | none => rw [hscan] at h; exact absurd h (by simp)
                    | some pr =>
                        obtain ⟨raw2, rest2⟩ := pr
                        rw [hscan] at h
                        simp only [Option.some.injEq, Prod.mk.injEq] at h
                        obtain ⟨h1, h2⟩ := h
                        obtain ⟨cc, hsplit, hnl, hqm⟩ :=
                          ih t4 raw2 rest2 (by simp at hlen; omega) hscan
                        refine ⟨'\\' :: 'u' :: x1 :: x2 :: x3 :: x4 :: cc,
                          by simp [hb, hsplit, h2], ?_, by simp [hqm]⟩
                        simp only [Bool.and_eq_true] at hhex
                        intro hmem
                        simp only [List.mem_cons] at hmem
                        rcases hmem with h2 | h2 | h2 | h2 | h2 | h2 | h2
                        · exact absurd h2.symm (by decide)
                        · exact absurd h2.symm (by decide)
                        · rw [← h2] at hhex
                          exact absurd hhex.1.1.1 (by decide)
                        · rw [← h2] at hhex
                          exact absurd hhex.1.1.2 (by decide)
                        · rw [← h2] at hhex
                          exact absurd hhex.1.2 (by decide)
                        · rw [← h2] at hhex
                          exact absurd hhex.2 (by decide)
                        · exact hnl h2
                  · rw [if_neg hhex] at h
                    exact absurd h (by simp)
              · next _csx e cs2 _hne =>
                  by_cases hu : isSimpleEscape e = true
                  · rw [if_pos hu] at h
                    cases hscan : scanString cs2 with
                    | none => rw [hscan] at h; exact absurd h (by simp)
                    | some pr =>
                        obtain ⟨raw2, rest2⟩ := pr
                        rw [hscan] at h
                        simp only [Option.some.injEq, Prod.mk.injEq] at h
                        obtain ⟨h1, h2⟩ := h
                        obtain ⟨cc, hsplit, hnl, hqm⟩ :=
                          ih cs2 raw2 rest2 (by simp at hlen; omega) hscan
                        refine ⟨'\\' :: e :: cc,
                          by simp [hb, hsplit, h2], ?_, by simp [hqm]⟩
                        intro hmem
                        simp only [List.mem_cons] at hmem
                        rcases hmem with h2 | h2 | h2
                        · exact absurd h2.symm (by decide)
                        · rw [← h2] at hu
                          exact absurd hu (by decide)
                        · exact hnl h2
                  · rw [if_neg hu] at h
                    exact absurd h (by simp)
            · rw [if_neg hb] at h
              by_cases hctl : c.val < 32
              · rw [if_pos hctl] at h
                exact absurd h (by simp)
              · rw [if_neg hctl] at h
                cases hscan : scanString cs with
                | none => rw [hscan] at h; exact absurd h (by simp)
                | some pr =>
                    obtain ⟨raw2, rest2⟩ := pr
                    rw [hscan] at h
                    simp only [Option.some.injEq, Prod.mk.injEq] at h
                    obtain ⟨h1, h2⟩ := h
                    obtain ⟨cc, hsplit, hnl, hqm⟩ :=
                      ih cs raw2 rest2 (by simp at hlen; omega) hscan
                    refine ⟨c :: cc, by simp [hsplit, h2], ?_, by simp [hqm]⟩
                    intro hmem
                    rcases List.mem_cons.mp hmem with h2 | h2
                    · rw [← h2] at hctl
                      exact hctl (by decide)
                    · exact hnl h2

/-- Guardedness from the absence of backticks, elementwise. -/
theorem backtickGuarded_of_forall {l : List Char}
    (h : ∀ c ∈ l, c ≠ '`') : backtickGuarded l :=
  backtickGuarded_of_not_mem (fun hm => (h _ hm) rfl)

/-- Digit-only chunks are guarded. -/
theorem backtickGuarded_of_digits {l : List Char}
    (h : ∀ c ∈ l, c.isDigit = true) : backtickGuarded l :=
  backtickGuarded_of_forall (fun c hc hce => by
    subst hce
    exact absurd (h _ hc) (by decide))

/-- The chunk consumed by a string literal (opening quote, scanned body,
closing quote) is guarded. -/
theorem backtickGuarded_string {cc : List Char} (hnl : '\n' ∉ cc)
    (hqm : '"' ∈ cc) : backtickGuarded ('"' :: cc) :=
  backtickGuarded_singleline
    (fun hm => by
      rcases List.mem_cons.mp hm with h' | h'
      · exact absurd h'.symm (by decide)
      · exact hnl h')
    (List.mem_cons_self _ _)

/-- Main parser invariant: every successful parse consumes a prefix in
which each backtick lies on the same line as a double quote (backticks
occur only inside single-line string literals). For array and object
bodies the consumed prefix ends with the closing bracket. -/
theorem parse_guard :
    ∀ fuel : Nat,
      (∀ l v rest, parseValue fuel l = some (v, rest) →
        ∃ c, l = c ++ rest ∧ backtickGuarded c)
      ∧ (∀ l vs rest, parseItems fuel l = some (vs, rest) →
        ∃ c, l = c ++ ']' :: rest ∧ backtickGuarded (c ++ [']']))
      ∧ (∀ l fs rest, parseFields fuel l = some (fs, rest) →
        ∃ c, l = c ++ '}' :: rest ∧ backtickGuarded (c ++ ['}'])) := by
  intro fuel
  induction fuel with
  | zero =>
      refine ⟨?_, ?_, ?_⟩ <;> intro l a rest h <;>
        simp [parseValue, parseItems, parseFields] at h
  | succ fuel ih =>
      obtain ⟨ihv, ihi, ihf⟩ := ih
      refine ⟨?_, ?_, ?_⟩
      · intro l v rest h
        cases l with
        | nil => simp [parseValue] at h
        | cons c cs =>
            simp only [parseValue] at h
            by_cases hq : c = '"'
            · rw [if_pos hq] at h
              cases hscan : scanString cs with
              | none => rw [hscan] at h; exact absurd h (by simp)
              | some pr =>
                  obtain ⟨raw, rest2⟩ := pr
                  rw [hscan] at h
                  simp only [Option.some.injEq, Prod.mk.injEq] at h
                  obtain ⟨h1, h2⟩ := h
                  obtain ⟨cc, hsplit, hnl, hqm⟩ :=
                    scanString_split cs.length cs raw rest2 le_rfl hscan
                  refine ⟨c :: cc, by simp [hsplit, h2], ?_⟩
                  rw [hq]
                  exact backtickGuarded_string hnl hqm
            · rw [if_neg hq] at h
              by_cases harr : c = '['
              · rw [if_pos harr] at h
                obtain ⟨w, hw, hws⟩ := skipJsonWs_decomp cs
                split at h
                · next rest1 heq =>
                    simp only [Option.some.injEq, Prod.mk.injEq] at h
                    obtain ⟨h1, h2⟩ := h
                    refine ⟨c :: w ++ [']'], ?_, ?_⟩
                    · rw [← h2]
                      simp only [List.cons_append, List.append_assoc]
                      rw [hw, heq]
                      simp
                    · refine backtickGuarded_of_forall ?_
                      intro x hx
                      rcases List.mem_cons.mp hx with rfl | hx'
                      · rw [harr]; decide
                      · rcases List.mem_append.mp hx' with hx2 | hx2
                        · intro hce
                          rw [hce] at hx2
                          exact absurd (hws _ hx2) (by decide)
                        · simp at hx2
                          rw [hx2]
                          decide
                · next heq =>
                    cases hitems : parseItems fuel (skipJsonWs cs) with
                    | none => rw [hitems] at h; exact absurd h (by simp)
                    | some pr =>
                        obtain ⟨items, rest2⟩ := pr
                        rw [hitems] at h
                        simp only [Option.some.injEq, Prod.mk.injEq] at h
                        obtain ⟨h1, h2⟩ := h
                        obtain ⟨ci, hsplit, hguard⟩ :=
                          ihi (skipJsonWs cs) items rest2 hitems
                        refine ⟨c :: w ++ ci ++ [']'], ?_, ?_⟩
                        · rw [← h2]
                          simp only [List.cons_append, List.append_assoc]
                          rw [hw, hsplit]
                          simp
                        · have hg1 : backtickGuarded (c :: w) := by
                            refine backtickGuarded_of_forall ?_
                            intro x hx
                            rcases List.mem_cons.mp hx with rfl | hx'
                            · rw [harr]; decide
                            · intro hce
                              rw [hce] at hx'
                              exact absurd (hws _ hx') (by decide)
                          have := backtickGuarded_append hg1 hguard
                          simpa [List.append_assoc] using this
              · rw [if_neg harr] at h
                by_cases hobj : c = '{'
                · rw [if_pos hobj] at h
                  obtain ⟨w, hw, hws⟩ := skipJsonWs_decomp cs
                  split at h
                  · next rest1 heq =>
                      simp only [Option.some.injEq, Prod.mk.injEq] at h
                      obtain ⟨h1, h2⟩ := h
                      refine ⟨c :: w ++ ['}'], ?_, ?_⟩
                      · rw [← h2]
                        simp only [List.cons_append, List.append_assoc]
                        rw [hw, heq]
                        simp
                      · refine backtickGuarded_of_forall ?_
                        intro x hx
                        rcases List.mem_cons.mp hx with rfl | hx'
                        · rw [hobj]; decide
                        · rcases List.mem_append.mp hx' with hx2 | hx2
                          · intro hce
                            rw [hce] at hx2
                            exact absurd (hws _ hx2) (by decide)
                          · simp at hx2
                            rw [hx2]
                            decide
                  · next heq =>
                      cases hfields : parseFields fuel (skipJsonWs cs) with
                      | none => rw [hfields] at h; exact absurd h (by simp)
                      | some pr =>
                          obtain ⟨fs, rest2⟩ := pr
                          rw [hfields] at h
                          simp only [Option.some.injEq, Prod.mk.injEq] at h
                          obtain ⟨h1, h2⟩ := h
                          obtain ⟨ci, hsplit, hguard⟩ :=
                            ihf (skipJsonWs cs) fs rest2 hfields
                          refine ⟨c :: w ++ ci ++ ['}'], ?_, ?_⟩
                          · rw [← h2]
                            simp only [List.cons_append, List.append_assoc]
                            rw [hw, hsplit]
                            simp
                          · have hg1 : backtickGuarded (c :: w) := by
                              refine backtickGuarded_of_forall ?_
                              intro x hx
                              rcases List.mem_cons.mp hx with rfl | hx'
                              · rw [hobj]; decide
                              · intro hce
                                rw [hce] at hx'
                                exact absurd (hws _ hx') (by decide)
                            have := backtickGuarded_append hg1 hguard
                            simpa [List.append_assoc] using this
                · rw [if_neg hobj] at h
                  by_cases ht : c = 't'
                  · rw [if_pos ht] at h
                    split at h
                    · next rest1 heq =>
                        simp only [Option.some.injEq, Prod.mk.injEq] at h
                        obtain ⟨h1, h2⟩ := h
                        refine ⟨c :: ['r', 'u', 'e'], ?_, ?_⟩
                        · rw [← h2]
                          rfl
                        · refine backtickGuarded_of_forall ?_
                          intro x hx
                          rcases List.mem_cons.mp hx with rfl | hx'
                          · rw [ht]; decide
                          · simp at hx'
                            rcases hx' with rfl | rfl | rfl <;> decide
                    · exact absurd h (by simp)
                  · rw [if_neg ht] at h
                    by_cases hf : c = 'f'
                    · rw [if_pos hf] at h
                      split at h
                      · next rest1 heq =>
                          simp only [Option.some.injEq, Prod.mk.injEq] at h
                          obtain ⟨h1, h2⟩ := h
                          refine ⟨c :: ['a', 'l', 's', 'e'], ?_, ?_⟩
                          · rw [← h2]
                            rfl
                          · refine backtickGuarded_of_forall ?_
                            intro x hx
                            rcases List.mem_cons.mp hx with rfl | hx'
                            · rw [hf]; decide
                            · simp at hx'
                              rcases hx' with rfl | rfl | rfl | rfl <;> decide
                      · exact absurd h (by simp)
                    · rw [if_neg hf] at h
                      by_cases hn : c = 'n'
                      · rw [if_pos hn] at h
                        split at h
                        · next rest1 heq =>
                            simp only [Option.some.injEq, Prod.mk.injEq] at h
                            obtain ⟨h1, h2⟩ := h
                            refine ⟨c :: ['u', 'l', 'l'], ?_, ?_⟩
                            · rw [← h2]
                              rfl
                            · refine backtickGuarded_of_forall ?_
                              intro x hx
                              rcases List.mem_cons.mp hx with rfl | hx'
                              · rw [hn]; decide
                              · simp at hx'
                                rcases hx' with rfl | rfl | rfl <;> decide
                        · exact absurd h (by simp)
                      · rw [if_neg hn] at h
                        by_cases hN : c = 'N'
                        · rw [if_pos hN] at h
                          split at h
                          · next rest1 heq =>
                              simp only [Option.some.injEq, Prod.mk.injEq] at h
                              obtain ⟨h1, h2⟩ := h
                              refine ⟨c :: ['a', 'N'], ?_, ?_⟩
                              · rw [← h2]
                                rfl
                              · refine backtickGuarded_of_forall ?_
                                intro x hx
                                rcases List.mem_cons.mp hx with rfl | hx'
                                · rw [hN]; decide
                                · simp at hx'
                                  rcases hx' with rfl | rfl <;> decide
                          · exact absurd h (by simp)
                        · rw [if_neg hN] at h
                          by_cases hI : c = 'I'
                          · rw [if_pos hI] at h
                            split at h
                            · next rest1 heq =>
                                simp only [Option.some.injEq,
                                  Prod.mk.injEq] at h
                                obtain ⟨h1, h2⟩ := h
                                refine ⟨c ::
                                  ['n', 'f', 'i', 'n', 'i', 't', 'y'],
                                  ?_, ?_⟩
                                · rw [← h2]
                                  rfl
                                · refine backtickGuarded_of_forall ?_
                                  intro x hx
                                  rcases List.mem_cons.mp hx with rfl | hx'
                                  · rw [hI]; decide
                                  · simp at hx'
                                    rcases hx' with
                                      rfl | rfl | rfl | rfl | rfl | rfl | rfl
                                      <;> decide
                            · exact absurd h (by simp)
                          · rw [if_neg hI] at h
                            by_cases hm : c = '-'
                            · rw [if_pos hm] at h
                              split at h
                              · next rest1 heq =>
                                  simp only [Option.some.injEq,
                                    Prod.mk.injEq] at h
                                  obtain ⟨h1, h2⟩ := h
                                  refine ⟨c :: ['I', 'n', 'f', 'i', 'n',
                                    'i', 't', 'y'], ?_, ?_⟩
                                  · rw [← h2]
                                    rfl
                                  · refine backtickGuarded_of_forall ?_
                                    intro x hx
                                    rcases List.mem_cons.mp hx with rfl | hx'
                                    · rw [hm]; decide
                                    · simp at hx'
                                      rcases hx' with rfl | rfl | rfl | rfl |
                                        rfl | rfl | rfl | rfl <;> decide
                              · next heq2 =>
                                  cases hip : parseIntPart cs with
                                  | none =>
                                      rw [hip] at h
                                      exact absurd h (by simp)
                                  | some pr =>
                                      obtain ⟨ip, r1⟩ := pr
                                      rw [hip] at h
                                      simp only [Option.some.injEq,
                                        Prod.mk.injEq] at h
                                      obtain ⟨h1, h2⟩ := h
                                      obtain ⟨hip1, hip2⟩ :=
                                        parseIntPart_decomp cs ip r1 hip
                                      obtain ⟨hfr1, hfr2⟩ :=
                                        parseFrac_decomp r1
                                      obtain ⟨hex1, hex2⟩ :=
                                        parseExp_decomp (parseFrac r1).2
                                      refine ⟨c :: (ip ++ (parseFrac r1).1
                                        ++ (parseExp (parseFrac r1).2).1),
                                        ?_, ?_⟩
                                      · rw [← h2]
                                        conv_lhs => rw [hip1, hfr1, hex1]
                                        simp
                                      · refine backtickGuarded_of_forall ?_
                                        intro x hx
                                        rcases List.mem_cons.mp hx with
                                          rfl | hx'
                                        · rw [hm]; decide
                                        · rcases List.mem_append.mp hx' with
                                            hx2 | hx2
                                          · rcases List.mem_append.mp hx2 with
                                              hx3 | hx3
                                            · intro hce
                                              rw [hce] at hx3
                                              exact absurd (hip2 _ hx3)
                                                (by decide)
                                            · intro hce
                                              rw [hce] at hx3
                                              rcases hfr2 _ hx3 with hd | hd
                                              · exact absurd hd (by decide)
                                              · exact absurd hd (by decide)
                                          · intro hce
                                            rw [hce] at hx2
                                            rcases hex2 _ hx2 with
                                              hd | hd | hd | hd | hd <;>
                                              exact absurd hd (by decide)
                            · rw [if_neg hm] at h
                              cases hip : parseIntPart (c :: cs) with
                              | none =>
                                  rw [hip] at h
                                  exact absurd h (by simp)
                              | some pr =>
                                  obtain ⟨ip, r1⟩ := pr
                                  rw [hip] at h
                                  simp only [Option.some.injEq,
                                    Prod.mk.injEq] at h
                                  obtain ⟨h1, h2⟩ := h
                                  obtain ⟨hip1, hip2⟩ :=
                                    parseIntPart_decomp (c :: cs) ip r1 hip
                                  obtain ⟨hfr1, hfr2⟩ := parseFrac_decomp r1
                                  obtain ⟨hex1, hex2⟩ :=
                                    parseExp_decomp (parseFrac r1).2
                                  refine ⟨ip ++ (parseFrac r1).1
                                    ++ (parseExp (parseFrac r1).2).1, ?_, ?_⟩
                                  · rw [← h2]
                                    conv_lhs => rw [hip1, hfr1, hex1]
                                    simp
                                  · refine backtickGuarded_of_forall ?_
                                    intro x hx
                                    rcases List.mem_append.mp hx with
                                      hx2 | hx2
                                    · rcases List.mem_append.mp hx2 with
                                        hx3 | hx3
                                      · intro hce
                                        rw [hce] at hx3
                                        exact absurd (hip2 _ hx3) (by decide)
                                      · intro hce
                                        rw [hce] at hx3
                                        rcases hfr2 _ hx3 with hd | hd
                                        · exact absurd hd (by decide)
                                        · exact absurd hd (by decide)
                                    · intro hce
                                      rw [hce] at hx2
                                      rcases hex2 _ hx2 with
                                        hd | hd | hd | hd | hd <;>
                                        exact absurd hd (by decide)
      · intro l vs rest h
        simp only [parseItems] at h
        cases hval : parseValue fuel l with
        | none => rw [hval] at h; exact absurd h (by simp)
        | some pr =>
            obtain ⟨v, r1⟩ := pr
            rw [hval] at h
            dsimp only at h
            obtain ⟨c0, hc0, hg0⟩ := ihv l v r1 hval
            obtain ⟨w, hw, hws⟩ := skipJsonWs_decomp r1
            split at h
            · next r2 heq =>
                obtain ⟨w2, hw2, hws2⟩ := skipJsonWs_decomp r2
                cases hrec : parseItems fuel (skipJsonWs r2) with
                | none => rw [hrec] at h; exact absurd h (by simp)
                | some pr2 =>
                    obtain ⟨vs2, rest2⟩ := pr2
                    rw [hrec] at h
                    simp only [Option.some.injEq, Prod.mk.injEq] at h
                    obtain ⟨h1, h2⟩ := h
                    obtain ⟨ci, hsplit, hguard⟩ :=
                      ihi (skipJsonWs r2) vs2 rest2 hrec
                    refine ⟨c0 ++ w ++ ',' :: w2 ++ ci, ?_, ?_⟩
                    · rw [hc0, hw, heq, hw2, hsplit, ← h2]
                      simp
                    · have hmid : backtickGuarded (w ++ ',' :: w2) :=
                        backtickGuarded_of_forall (by
                          intro x hx
                          rcases List.mem_append.mp hx with hx2 | hx2
                          · intro hce
                            rw [hce] at hx2
                            exact absurd (hws _ hx2) (by decide)
                          · rcases List.mem_cons.mp hx2 with rfl | hx3
                            · decide
                            · intro hce
                              rw [hce] at hx3
                              exact absurd (hws2 _ hx3) (by decide))
                      have := backtickGuarded_append hg0
                        (backtickGuarded_append hmid (by simpa using hguard))
                      simpa [List.append_assoc] using this
            · next rest1 heq =>
                simp only [Option.some.injEq, Prod.mk.injEq] at h
                obtain ⟨h1, h2⟩ := h
                refine ⟨c0 ++ w, ?_, ?_⟩
                · rw [hc0, hw, heq, ← h2]
                  simp
                · have hwg : backtickGuarded (w ++ [']']) :=
                    backtickGuarded_of_forall (by
                      intro x hx
                      rcases List.mem_append.mp hx with hx2 | hx2
                      · intro hce
                        rw [hce] at hx2
                        exact absurd (hws _ hx2) (by decide)
                      · simp at hx2
                        rw [hx2]
                        decide)
                  have := backtickGuarded_append hg0 hwg
                  simpa [List.append_assoc] using this
            · exact absurd h (by simp)
      · intro l fs rest h
        simp only [parseFields] at h
        split at h
        · next cs =>
            cases hscan : scanString cs with
            | none => rw [hscan] at h; exact absurd h (by simp)
            | some pr =>
                obtain ⟨raw, r1⟩ := pr
                rw [hscan] at h
                dsimp only at h
                obtain ⟨cc, hcc, hnl, hqm⟩ :=
                  scanString_split cs.length cs raw r1 le_rfl hscan
                obtain ⟨w, hw, hws⟩ := skipJsonWs_decomp r1
                split at h
                · next r2 heq =>
                    obtain ⟨w2, hw2, hws2⟩ := skipJsonWs_decomp r2
                    cases hval : parseValue fuel (skipJsonWs r2) with
                    | none => rw [hval] at h; exact absurd h (by simp)
                    | some pr2 =>
                        obtain ⟨v, r3⟩ := pr2
                        rw [hval] at h
                        dsimp only at h
                        obtain ⟨c0, hc0, hg0⟩ :=
                          ihv (skipJsonWs r2) v r3 hval
                        obtain ⟨w3, hw3, hws3⟩ := skipJsonWs_decomp r3
                        split at h
                        · next r4 heq4 =>
                            obtain ⟨w4, hw4, hws4⟩ := skipJsonWs_decomp r4
                            cases hrec : parseFields fuel (skipJsonWs r4) with
                            | none =>
                                rw [hrec] at h
                                exact absurd h (by simp)
                            | some pr3 =>
                                obtain ⟨fs2, rest2⟩ := pr3
                                rw [hrec] at h
                                simp only [Option.some.injEq,
                                  Prod.mk.injEq] at h
                                obtain ⟨h1, h2⟩ := h
                                obtain ⟨ci, hsplit, hguard⟩ :=
                                  ihf (skipJsonWs r4) fs2 rest2 hrec
                                refine ⟨'"' :: cc ++ w ++ ':' :: w2 ++ c0
                                  ++ w3 ++ ',' :: w4 ++ ci, ?_, ?_⟩
                                · rw [hcc, hw, heq, hw2, hc0, hw3, heq4,
                                    hw4, hsplit, ← h2]
                                  simp
                                · have hg1 : backtickGuarded ('"' :: cc) :=
                                    backtickGuarded_string hnl hqm
                                  have hg2 : backtickGuarded
                                      (w ++ ':' :: w2) :=
                                    backtickGuarded_of_forall (by
                                      intro x hx
                                      rcases List.mem_append.mp hx with
                                        hx2 | hx2
                                      · intro hce
                                        rw [hce] at hx2
                                        exact absurd (hws _ hx2) (by decide)
                                      · rcases List.mem_cons.mp hx2 with
                                          rfl | hx3
                                        · decide
                                        · intro hce
                                          rw [hce] at hx3
                                          exact absurd (hws2 _ hx3)
                                            (by decide))
                                  have hg3 : backtickGuarded
                                      (w3 ++ ',' :: w4) :=
                                    backtickGuarded_of_forall (by
                                      intro x hx
                                      rcases List.mem_append.mp hx with
                                        hx2 | hx2
                                      · intro hce
                                        rw [hce] at hx2
                                        exact absurd (hws3 _ hx2) (by decide)
                                      · rcases List.mem_cons.mp hx2 with
                                          rfl | hx3
                                        · decide
                                        · intro hce
                                          rw [hce] at hx3
                                          exact absurd (hws4 _ hx3)
                                            (by decide))
                                  have := backtickGuarded_append hg1
                                    (backtickGuarded_append hg2
                                      (backtickGuarded_append hg0
                                        (backtickGuarded_append hg3
                                          (by simpa using hguard))))
                                  simpa [List.append_assoc] using this
                        · next rest1 heq4 =>
                            simp only [Option.some.injEq,
                              Prod.mk.injEq] at h
                            obtain ⟨h1, h2⟩ := h
                            refine ⟨'"' :: cc ++ w ++ ':' :: w2 ++ c0
                              ++ w3, ?_, ?_⟩
                            · rw [hcc, hw, heq, hw2, hc0, hw3, heq4, ← h2]
                              simp
                            · have hg1 : backtickGuarded ('"' :: cc) :=
                                backtickGuarded_string hnl hqm
                              have hg2 : backtickGuarded (w ++ ':' :: w2) :=
                                backtickGuarded_of_forall (by
                                  intro x hx
                                  rcases List.mem_append.mp hx with
                                    hx2 | hx2
                                  · intro hce
                                    rw [hce] at hx2
                                    exact absurd (hws _ hx2) (by decide)
                                  · rcases List.mem_cons.mp hx2 with
                                      rfl | hx3
                                    · decide
                                    · intro hce
                                      rw [hce] at hx3
                                      exact absurd (hws2 _ hx3) (by decide))
                              have hg3 : backtickGuarded (w3 ++ ['}']) :=
                                backtickGuarded_of_forall (by
                                  intro x hx
                                  rcases List.mem_append.mp hx with
                                    hx2 | hx2
                                  · intro hce
                                    rw [hce] at hx2
                                    exact absurd (hws3 _ hx2) (by decide)
                                  · simp at hx2
                                    rw [hx2]
                                    decide)
                              have := backtickGuarded_append hg1
                                (backtickGuarded_append hg2
                                  (backtickGuarded_append hg0 hg3))
                              simpa [List.append_assoc] using this
                        · exact absurd h (by simp)
                · exact absurd h (by simp)
        · exact absurd h (by simp)

/-! ### Strip/trim support lemmas -/

/-- JSON whitespace is also Python whitespace. -/
theorem isPyWs_of_isJsonWs {c : Char} (h : isJsonWs c = true) :
    isPyWs c = true := by
  simp only [isJsonWs, Bool.or_eq_true, decide_eq_true_eq] at h
  rcases h with ((rfl | rfl) | rfl) | rfl <;> rfl

/-- `dropWhile` is the identity on a list whose head fails the
predicate. -/
theorem dropWhile_eq_self_of_head {p : Char → Bool} {c : Char}
    {cs : List Char} (h : p c = false) :
    List.dropWhile p (c :: cs) = c :: cs := by
  simp [List.dropWhile, h]

/-- `dropWhile` skips over an all-satisfying prefix. -/
theorem dropWhile_append_of_all {p : Char → Bool} {w l : List Char}
    (h : ∀ c ∈ w, p c = true) :
    List.dropWhile p (w ++ l) = List.dropWhile p l := by
  induction w with
  | nil => rfl
  | cons c cs ih =>
      have hc := h c (List.mem_cons_self c cs)
      simp only [List.cons_append, List.dropWhile, hc]
      exact ih (fun x hx => h x (List.mem_cons_of_mem c hx))

/-- Trimming both ends is the identity when both end characters fail
the predicate. -/
theorem trimBoth_fix {p : Char → Bool} {l : List Char}
    (h1 : ∃ c cs, l = c :: cs ∧ p c = false)
    (h2 : ∃ c cs, l.reverse = c :: cs ∧ p c = false) :
    ((l.dropWhile p).reverse.dropWhile p).reverse = l := by
  obtain ⟨c, cs, rfl, hc⟩ := h1
  rw [dropWhile_eq_self_of_head hc]
  obtain ⟨c2, cs2, hrev, hc2⟩ := h2
  rw [hrev, dropWhile_eq_self_of_head hc2, ← hrev, List.reverse_reverse]

/-- Trimming both ends of a sandwich of satisfying characters around a
body with non-satisfying end characters returns the body. -/
theorem trimBoth_sandwich {p : Char → Bool} {w1 m w2 : List Char}
    (hw1 : ∀ c ∈ w1, p c = true) (hw2 : ∀ c ∈ w2, p c = true)
    (hm1 : ∃ c cs, m = c :: cs ∧ p c = false)
    (hm2 : ∃ c cs, m.reverse = c :: cs ∧ p c = false) :
    ((((w1 ++ m ++ w2).dropWhile p).reverse.dropWhile p)).reverse = m := by
  obtain ⟨c, cs, hm, hc⟩ := hm1
  have hdrop : List.dropWhile p (w1 ++ m ++ w2) = m ++ w2 := by
    rw [List.append_assoc, dropWhile_append_of_all hw1, hm]
    exact dropWhile_eq_self_of_head hc
  rw [hdrop, List.reverse_append,
    dropWhile_append_of_all (fun x hx => hw2 x (List.mem_reverse.mp hx))]
  obtain ⟨c2, cs2, hrev, hc2⟩ := hm2
  rw [hrev, dropWhile_eq_self_of_head hc2, ← hrev, List.reverse_reverse]

/-- `jsonTrim` removes all-whitespace margins. -/
theorem jsonTrim_decomp (l : List Char) :
    ∃ w1 w2, l = w1 ++ jsonTrim l ++ w2
      ∧ (∀ c ∈ w1, isJsonWs c = true) ∧ (∀ c ∈ w2, isJsonWs c = true) := by
  refine ⟨l.takeWhile isJsonWs,
    (((l.dropWhile isJsonWs).reverse.takeWhile isJsonWs)).reverse, ?_, ?_, ?_⟩
  · have hd : List.dropWhile isJsonWs l = jsonTrim l
        ++ ((l.dropWhile isJsonWs).reverse.takeWhile isJsonWs).reverse := by
      conv_lhs => rw [← List.reverse_reverse (l.dropWhile isJsonWs)]
      conv_lhs =>
        rw [← List.takeWhile_append_dropWhile (p := isJsonWs)
          (l := (l.dropWhile isJsonWs).reverse)]
      rw [List.reverse_append]
      rfl
    conv_lhs => rw [← List.takeWhile_append_dropWhile (p := isJsonWs) (l := l)]
    conv_lhs => rw [hd]
    rw [List.append_assoc]
  · exact fun c hc => List.mem_takeWhile_imp hc
  · exact fun c hc => List.mem_takeWhile_imp (List.mem_reverse.mp hc)

/-- A successful parse of an array value consumes a chunk of the form
`[ … ]`. -/
theorem parseValue_arr_shape (fuel : Nat) (l : List Char) (xs : List Json)
    (rest : List Char) (h : parseValue fuel l = some (Json.arr xs, rest)) :
    ∃ mid, l = '[' :: mid ++ ']' :: rest := by
  cases fuel with
  | zero => simp [parseValue] at h
  | succ fuel =>
      cases l with
      | nil => simp [parseValue] at h
      | cons c cs =>
          simp only [parseValue] at h
          by_cases hq : c = '"'
          · rw [if_pos hq] at h
            cases hscan : scanString cs with
            | none => rw [hscan] at h; exact absurd h (by simp)
            | some pr =>
                obtain ⟨raw, rest2⟩ := pr
                rw [hscan] at h
                simp at h
          · rw [if_neg hq] at h
            by_cases harr : c = '['
            · rw [if_pos harr] at h
              obtain ⟨w, hw, hws⟩ := skipJsonWs_decomp cs
              split at h
              · next rest1 heq =>
                  simp only [Option.some.injEq, Prod.mk.injEq] at h
                  obtain ⟨h1, h2⟩ := h
                  refine ⟨w, ?_⟩
                  rw [harr, ← h2]
                  rw [hw, heq]
                  simp
              · next heq =>
                  cases hitems : parseItems fuel (skipJsonWs cs) with
                  | none => rw [hitems] at h; exact absurd h (by simp)
                  | some pr =>
                      obtain ⟨items, rest2⟩ := pr
                      rw [hitems] at h
                      simp only [Option.some.injEq, Prod.mk.injEq] at h
                      obtain ⟨h1, h2⟩ := h
                      obtain ⟨ci, hsplit, _⟩ :=
                        (parse_guard fuel).2.1 (skipJsonWs cs) items rest2
                          hitems
                      refine ⟨w ++ ci, ?_⟩
                      rw [harr, ← h2]
                      rw [hw, hsplit]
                      simp
            · rw [if_neg harr] at h
              by_cases hobj : c = '{'
              · rw [if_pos hobj] at h
                split at h
                · simp at h
                · cases hfields : parseFields fuel (skipJsonWs cs) with
                  | none => rw [hfields] at h; exact absurd h (by simp)
                  | some pr =>
                      obtain ⟨fs, rest2⟩ := pr
                      rw [hfields] at h
                      simp at h
              · rw [if_neg hobj] at h
                by_cases ht : c = 't'
                · rw [if_pos ht] at h
                  split at h <;> simp at h
                · rw [if_neg ht] at h
                  by_cases hf : c = 'f'
                  · rw [if_pos hf] at h
                    split at h <;> simp at h
                  · rw [if_neg hf] at h
                    by_cases hn : c = 'n'
                    · rw [if_pos hn] at h
                      split at h <;> simp at h
                    · rw [if_neg hn] at h
                      by_cases hN : c = 'N'
                      · rw [if_pos hN] at h
                        split at h <;> simp at h
                      · rw [if_neg hN] at h
                        by_cases hI : c = 'I'
                        · rw [if_pos hI] at h
                          split at h <;> simp at h
                        · rw [if_neg hI] at h
                          by_cases hm : c = '-'
                          · rw [if_pos hm] at h
                            split at h
                            · simp at h
                            · cases hip : parseIntPart cs with
                              | none =>
                                  rw [hip] at h
                                  exact absurd h (by simp)
                              | some pr =>
                                  obtain ⟨ip, r1⟩ := pr
                                  rw [hip] at h
                                  simp at h
                          · rw [if_neg hm] at h
                            cases hip : parseIntPart (c :: cs) with
                            | none =>
                                rw [hip] at h
                                exact absurd h (by simp)
                            | some pr =>
                                obtain ⟨ip, r1⟩ := pr
                                rw [hip] at h
                                simp at h

/-- `pyStripL` removes all-whitespace margins. -/
theorem pyStripL_decomp (l : List Char) :
    ∃ w1 w2, l = w1 ++ pyStripL l ++ w2
      ∧ (∀ c ∈ w1, isPyWs c = true) ∧ (∀ c ∈ w2, isPyWs c = true) := by
  refine ⟨l.takeWhile isPyWs,
    (((l.dropWhile isPyWs).reverse.takeWhile isPyWs)).reverse, ?_, ?_, ?_⟩
  · have hd : List.dropWhile isPyWs l = pyStripL l
        ++ ((l.dropWhile isPyWs).reverse.takeWhile isPyWs).reverse := by
      conv_lhs => rw [← List.reverse_reverse (l.dropWhile isPyWs)]
      conv_lhs =>
        rw [← List.takeWhile_append_dropWhile (p := isPyWs)
          (l := (l.dropWhile isPyWs).reverse)]
      rw [List.reverse_append]
      rfl
    conv_lhs => rw [← List.takeWhile_append_dropWhile (p := isPyWs) (l := l)]
    conv_lhs => rw [hd]
    rw [List.append_assoc]
  · exact fun c hc => List.mem_takeWhile_imp hc
  · exact fun c hc => List.mem_takeWhile_imp (List.mem_reverse.mp hc)

/-- In a backtick-guarded list, no line strips to exactly three
backticks: any such line would have a backtick with no quote on its own
line. -/
theorem no_fence_line {l : List Char} (hg : backtickGuarded l) :
    ∀ line ∈ splitLines l, pyTrim line ≠ "```".data := by
  intro line hline hfence
  have hnl : '\n' ∉ line := splitLines_no_newline l line hline
  obtain ⟨pre, suf, hdec, hpre, hsuf⟩ := splitLines_mem_decomp l line hline
  obtain ⟨wa, wb, hline_eq, hwa, hwb⟩ := pyStripL_decomp line
  rw [pyTrim] at hfence
  rw [hfence] at hline_eq
  have hqwa : '"' ∉ wa := fun hq => by
    have := hwa '"' hq
    simp [isPyWs] at this
  have hqwb : '"' ∉ wb := fun hq => by
    have := hwb '"' hq
    simp [isPyWs] at this
  have hocc : l = (pre ++ wa) ++ '`' :: (('`' :: '`' :: wb) ++ suf) := by
    rw [hdec, hline_eq]
    rw [show ("```".data : List Char) = ['`', '`', '`'] from rfl]
    simp
  rcases hg (pre ++ wa) (('`' :: '`' :: wb) ++ suf) hocc with
    ⟨p1, p2, hp, hnl2⟩ | ⟨s1, s2, hs, hnl2⟩
  · rcases List.append_eq_append_iff.mp hp with ⟨k, hk1, hk2⟩ | ⟨k, hk1, hk2⟩
    · exact hqwa (hk2 ▸ List.mem_append.mpr
        (Or.inr (List.mem_cons_self _ _)))
    · cases k with
      | nil =>
          simp at hk2
          exact hqwa (hk2 ▸ List.mem_cons_self _ _)
      | cons kc k2 =>
          have hkc : kc = '"' ∧ p2 = k2 ++ wa := by
            have := hk2
            simp only [List.cons_append, List.cons.injEq] at this
            exact ⟨this.1.symm, this.2⟩
          obtain ⟨rfl, rfl⟩ := hkc
          rcases hpre with rfl | ⟨p', rfl⟩
          · simp at hk1
          · cases k2 with
            | nil =>
                have h1 : (p' ++ ['\n']).getLast? = some '\n' :=
                  List.getLast?_concat p'
                have h2 : (p' ++ ['\n']).getLast? = some '"' := by
                  rw [hk1]
                  exact List.getLast?_append_of_ne_nil p1 (by simp)
                rw [h1] at h2
                simp at h2
            | cons c2 k3 =>
                have h1 : (p' ++ ['\n']).getLast? = some '\n' :=
                  List.getLast?_concat p'
                have h2 : (p' ++ ['\n']).getLast? = (c2 :: k3).getLast? := by
                  rw [hk1]
                  rw [show p1 ++ '"' :: c2 :: k3 = (p1 ++ ['"']) ++ (c2 :: k3)
                    from by simp]
                  exact List.getLast?_append_of_ne_nil (p1 ++ ['"'])
                    (by simp)
                have h3 : '\n' ∈ (c2 :: k3) :=
                  List.mem_of_mem_getLast? (by rw [← h2, h1]; rfl)
                exact hnl2 (List.mem_append.mpr (Or.inl h3))
  · rcases List.append_eq_append_iff.mp hs with ⟨k, hk1, hk2⟩ | ⟨k, hk1, hk2⟩
    · rcases hsuf with rfl | ⟨s', rfl⟩
      · simp at hk2
      · cases k with
        | nil =>
            simp at hk2
        | cons kc k2 =>
            have hkc : kc = '\n' := by
              have := hk2
              simp only [List.cons_append, List.cons.injEq] at this
              exact this.1.symm
            subst hkc
            exact hnl2 (hk1 ▸ List.mem_append.mpr
              (Or.inr (List.mem_cons_self _ _)))
    · cases k with
      | nil =>
          simp only [List.nil_append] at hk2
          rcases hsuf with rfl | ⟨s', rfl⟩
          · simp at hk2
          · simp at hk2
      | cons kc k2 =>
          have hkc : kc = '"' := by
            have := hk2
            simp only [List.cons_append, List.cons.injEq] at this
            exact this.1.symm
          subst hkc
          have : '"' ∈ '`' :: '`' :: wb := by
            rw [hk1]
            exact List.mem_append.mpr (Or.inr (List.mem_cons_self _ _))
          rcases List.mem_cons.mp this with h' | h'
          · exact absurd h' (by decide)
          · rcases List.mem_cons.mp h' with h'' | h''
            · exact absurd h'' (by decide)
            · exact hqwb h''

/-- The character data of a fence-wrapped response. -/
theorem fenceWrap_data (t : String) :
    (fenceWrap t).data
      = "```json".data ++ '\n' :: (t.data ++ '\n' :: "```".data) := by
  rw [fenceWrap, String.data_append, String.data_append]
  rfl

/-- Stripping the fence from a wrapped response recovers the original
text when no interior line strips to three backticks. -/
theorem stripFence_fenceWrap (t : String)
    (hnofence : ∀ line ∈ splitLines t.data, pyTrim line ≠ "```".data) :
    stripFence ((fenceWrap t).data) = t.data := by
  rw [stripFence, fenceWrap_data, splitLines_append_newline,
    splitLines_append_newline]
  rw [show splitLines ("```json".data) = ["```json".data] from rfl,
    show splitLines ("```".data) = ["```".data] from rfl]
  rw [show (["```json".data] ++ (splitLines t.data ++ ["```".data])).drop 1
    = splitLines t.data ++ ["```".data] from rfl]
  rw [List.filter_append]
  rw [show List.filter (fun line => !(pyTrim line == "```".data))
      ["```".data] = [] from by decide]
  rw [List.filter_eq_self.mpr (fun line hline => by
    have := hnofence line hline
    simp only [Bool.not_eq_true', beq_eq_false_iff_ne, ne_eq]
    exact this)]
  rw [List.append_nil]
  exact joinLines_splitLines t.data

/-- C8: if a text is a valid JSON array, the generation-response parser
yields exactly the same record list for the text wrapped in markdown
code fences ("```json" line before, "```" line after) as for the
unwrapped text: the fence is stripped before JSON parsing. -/
theorem fenced_response_parses_identically (t : String) (xs : List Json)
    (h : jsonLoads t = some (Json.arr xs)) :
    parseJsonResponse (fenceWrap t) = Except.ok xs
    ∧ parseJsonResponse t = Except.ok xs := by
  have hpv : parseValue (2 * (jsonTrim t.data).length + 2) (jsonTrim t.data)
      = some (Json.arr xs, []) := by
    rw [jsonLoads, jsonLoadsL] at h
    split at h
    · next v heq =>
        simp only [Option.some.injEq] at h
        rw [heq, h]
    · exact absurd h (by simp)
  obtain ⟨mid, hmid⟩ := parseValue_arr_shape _ _ _ _ hpv
  have hushape : jsonTrim t.data = '[' :: (mid ++ [']']) := by
    simpa using hmid
  obtain ⟨cu, hcu, hgu0⟩ := (parse_guard _).1 _ _ _ hpv
  have hgu : backtickGuarded (jsonTrim t.data) := by
    simp only [List.append_nil] at hcu
    rw [hcu]
    exact hgu0
  obtain ⟨w1, w2, hdec, hw1, hw2⟩ := jsonTrim_decomp t.data
  have hgt : backtickGuarded t.data := by
    have hx := backtickGuarded_append (backtickGuarded_of_all_ws hw1)
      (backtickGuarded_append hgu (backtickGuarded_of_all_ws hw2))
    rw [← List.append_assoc] at hx
    rw [← hdec] at hx
    exact hx
  have hnofence := no_fence_line hgt
  have hloadsu : jsonLoadsL (jsonTrim t.data) = some (Json.arr xs) := by
    have hfix : jsonTrim (jsonTrim t.data) = jsonTrim t.data := by
      apply trimBoth_fix
      · exact ⟨'[', mid ++ [']'], hushape, by decide⟩
      · refine ⟨']', ('[' :: mid).reverse, ?_, by decide⟩
        rw [hushape]
        rw [show '[' :: (mid ++ [']']) = ('[' :: mid) ++ [']'] from by simp]
        simp
    rw [jsonLoadsL]
    simp only [hfix]
    rw [hpv]
  constructor
  · rw [parseJsonResponse]
    have hstr : pyStripL ((fenceWrap t).data) = (fenceWrap t).data := by
      apply trimBoth_fix
      · exact ⟨'`', _, by rw [fenceWrap_data]; rfl, by decide⟩
      · refine ⟨'`',
          ("```json".data ++ '\n' :: (t.data ++ ['\n', '`', '`'])).reverse,
          ?_, by decide⟩
        rw [fenceWrap_data]
        rw [show "```json".data ++ '\n' :: (t.data ++ '\n' :: "```".data)
          = ("```json".data ++ '\n' :: (t.data ++ ['\n', '`', '`'])) ++ ['`']
          from by simp]
        simp
    have hpref : List.isPrefixOf "```".data (pyStripL ((fenceWrap t).data))
        = true := by
      rw [hstr, fenceWrap_data]
      rfl
    simp only [hpref, if_true]
    rw [hstr, stripFence_fenceWrap t hnofence]
    rw [show jsonLoadsL t.data = jsonLoads t from rfl, h]
  · rw [parseJsonResponse]
    have hpy : pyStripL t.data = jsonTrim t.data := by
      conv_lhs => rw [hdec]
      apply trimBoth_sandwich
      · exact fun c hc => isPyWs_of_isJsonWs (hw1 c hc)
      · exact fun c hc => isPyWs_of_isJsonWs (hw2 c hc)
      · exact ⟨'[', mid ++ [']'], hushape, by decide⟩
      · refine ⟨']', ('[' :: mid).reverse, ?_, by decide⟩
        rw [hushape]
        rw [show '[' :: (mid ++ [']']) = ('[' :: mid) ++ [']'] from by simp]
        simp
    have hpref : List.isPrefixOf "```".data (pyStripL t.data) = false := by
      rw [hpy, hushape]
      rfl
    simp only [hpref, Bool.false_eq_true, if_false]
    rw [hpy, hloadsu]

/-- Witness for C8 on a concrete JSON array text. -/
theorem fenced_response_witness :
    parseJsonResponse (fenceWrap "[1, 2]")
        = Except.ok [Json.num "1", Json.num "2"]
    ∧ parseJsonResponse "[1, 2]"
        = Except.ok [Json.num "1", Json.num "2"] :=
  fenced_response_parses_identically "[1, 2]" [Json.num "1", Json.num "2"]
    (by rfl)

/-! ## Verifier (`verifier.py`, `Verifier._verify_single`)

The procedure uploads the video, loops while the remote file state is
"PROCESSING" (checking the file name and re-fetching the handle each
iteration), requires the final state to be "ACTIVE", issues the
judgment request, parses the structured answer and computes the reward.

The source contains no `files.delete` call on any path, and the
processing loop has no bound: the embedding counts delete calls (the
count is zero in every outcome because no call site exists) and fuels
the `while` loop — `hung` means the loop was still running when the
fuel ran out. -/

/-- The remote file handle: `file.name` and `file.state.name` (both
`none` when absent). -/
structure FileHandle where
  name : Option String
  state : Option String
deriving DecidableEq, Repr

/-- Remote-service oracles for one `_verify_single` run: the upload
result, the successive `files.get` results, and the
`generate_content` outcome (`ok` carries `response.text`). -/
structure VerifierEnv where
  upload : FileHandle
  get : Nat → FileHandle
  generate : Except String String

/-- Outcome of `_verify_single`, instrumented with the number of
`files.delete` calls made. -/
inductive VerifyOutcome where
  | ok (result : VerificationResult) (deletes : Nat)
  | err (scenario_id : String) (msg : String) (deletes : Nat)
  | hung

/-- Deletes performed along the recorded outcome. -/
def VerifyOutcome.deleteCount : VerifyOutcome → Nat
  | .ok _ d => d
  | .err _ _ d => d
  | .hung => 0

/-- The `while state_name == "PROCESSING"` loop: each iteration fails
when the file name is falsy, else re-fetches the handle. `none` when
the fuel runs out with the state still "PROCESSING". -/
def processingWait (get : Nat → FileHandle) :
    Nat → Nat → FileHandle → Option (Except String FileHandle)
  | 0, _, f =>
      if f.state = some "PROCESSING" then none else some (Except.ok f)
  | Nat.succ fuel, k, f =>
      if f.state = some "PROCESSING" then
        if f.name.getD "" = "" then
          some (Except.error "Uploaded video has no retrievable file name.")
        else processingWait get fuel (k + 1) (get k)
      else some (Except.ok f)

/-- Last-occurrence lookup in a parsed JSON object (`dict.get`; later
duplicate keys win, as in `json.loads`). -/
def objGet (fields : List (String × Json)) (key : String) : Option Json :=
  (fields.reverse.find? (fun f => f.1 = key)).map (fun f => f.2)

/-- `_parse_verification_response(text)`: strip, remove an optional
code fence (same logic as `_parse_json_response`), `json.loads`, read
`answer` (default "undetermined", lowercased and stripped, coerced to
"undetermined" when outside the three allowed values) and `reasoning`
(default "No reasoning provided."; non-string reasoning values are
collapsed to the default in this model). A non-string answer cannot be
lowercased and fails. -/
def parseVerificationResponse (text : String) :
    Except String (String × String) :=
  let stripped := pyStripL text.data
  let cleaned := if "```".data.isPrefixOf stripped then stripFence stripped
    else stripped
  match jsonLoadsL cleaned with
  | none => Except.error "Invalid JSON from VLM"
  | some (Json.obj fields) =>
      let reasoning := match objGet fields "reasoning" with
        | some (Json.str r) => r
        | _ => "No reasoning provided."
      match (objGet fields "answer").getD (Json.str "undetermined") with
      | Json.str a =>
          let answer := pyStrip (pyLower a)
          let answer := if answer = "yes" ∨ answer = "no"
              ∨ answer = "undetermined" then answer else "undetermined"
          Except.ok (answer, reasoning)
      | _ => Except.error "VLM answer is not a string"
  | some _ => Except.error "VLM response is not an object"

/-- `_verify_single(scenario, video_path)`. Every outcome records zero
deletions, mirroring the absence of any `files.delete` call in the
source. -/
def verifySingle (env : VerifierEnv) (fuel : Nat) (scenario : Scenario)
    (video_path : String) : VerifyOutcome :=
  match processingWait env.get fuel 0 env.upload with
  | none => VerifyOutcome.hung
  | some (Except.error m) => VerifyOutcome.err scenario.scenario_id m 0
  | some (Except.ok f) =>
      if f.state ≠ some "ACTIVE" then
        VerifyOutcome.err scenario.scenario_id
          ("File upload failed — state: "
            ++ (if f.state.getD "" = "" then "UNKNOWN"
                else f.state.getD "")) 0
      else
        match env.generate with
        | Except.error m => VerifyOutcome.err scenario.scenario_id m 0
        | Except.ok text =>
            if text = "" then
              VerifyOutcome.err scenario.scenario_id
                "Gemini returned an empty verification response." 0
            else
              match parseVerificationResponse text with
              | Except.error m =>
                  VerifyOutcome.err scenario.scenario_id m 0
              | Except.ok (vlm_answer, vlm_reasoning) =>
                  VerifyOutcome.ok
                    { scenario_id := scenario.scenario_id,
                      category := scenario.category,
                      verification_question :=
                        scenario.verification_question,
                      expected_answer := scenario.expected_answer,
                      vlm_answer := vlm_answer,
                      vlm_reasoning := vlm_reasoning,
                      reward := computeReward vlm_answer
                        scenario.expected_answer,
                      video_path := video_path } 0

/-- A remote file that stays in "PROCESSING" forever. -/
def stuckHandle : FileHandle :=
  { name := some "file-1", state := some "PROCESSING" }

/-- An upload whose processing never finishes. -/
def stuckEnv : VerifierEnv :=
  { upload := stuckHandle,
    get := fun _ => stuckHandle,
    generate := Except.error "never reached" }

/-- With a perpetually "PROCESSING" file, the wait loop never exits. -/
theorem processingWait_stuck (get : Nat → FileHandle)
    (hst : ∀ k, (get k).state = some "PROCESSING")
    (hnm : ∀ k, (get k).name.getD "" ≠ "") :
    ∀ (fuel k : Nat) (f : FileHandle), f.state = some "PROCESSING" →
      f.name.getD "" ≠ "" → processingWait get fuel k f = none := by
  intro fuel
  induction fuel with
  | zero =>
      intro k f hf _
      simp [processingWait, hf]
  | succ n ih =>
      intro k f hf hfn
      simp only [processingWait]
      rw [if_pos hf, if_neg hfn]
      exact ih (k + 1) (get k) (hst k) (hnm k)

/-- A remote file that is immediately "ACTIVE". -/
def activeHandle : FileHandle :=
  { name := some "file-2", state := some "ACTIVE" }

/-- A run in which upload, processing and judgment all succeed. -/
def successEnv : VerifierEnv :=
  { upload := activeHandle,
    get := fun _ => activeHandle,
    generate :=
      Except.ok "\x7b\"answer\":\"yes\",\"reasoning\":\"looks correct\"\x7d" }

/-- A concrete scenario under verification. -/
def demoScenario : Scenario :=
  { scenario_id := "PS-002", category := "cat",
    world_prompt := "a wet road", action := "brakes",
    verification_question := "q?", expected_answer := "yes",
    confidence := Confidence.HIGH, video_prompt := "a car braking" }

/-- C2 (code finding): `_verify_single` performs zero remote-file
deletions on every path — including a fully successful judgment — and
with an upload that never leaves "PROCESSING" it loops forever rather
than raising a timeout; the uploaded file is never deleted, on no
path. -/
theorem verifier_no_delete :
    (∀ (env : VerifierEnv) (fuel : Nat) (scenario : Scenario)
        (video_path : String),
      (verifySingle env fuel scenario video_path).deleteCount = 0)
    ∧ (∀ (fuel : Nat) (scenario : Scenario) (video_path : String),
        verifySingle stuckEnv fuel scenario video_path = VerifyOutcome.hung)
    ∧ verifySingle successEnv 1 demoScenario "videos/PS-002.mp4"
        = VerifyOutcome.ok
          { scenario_id := "PS-002", category := "cat",
            verification_question := "q?", expected_answer := "yes",
            vlm_answer := "yes", vlm_reasoning := "looks correct",
            reward := RewardScore.CORRECT,
            video_path := "videos/PS-002.mp4" } 0 := by
  refine ⟨?_, ?_, ?_⟩
  · intro env fuel scenario video_path
    unfold verifySingle
    split
    · rfl
    · rfl
    · split
      · rfl
      · split
        · rfl
        · split
          · rfl
          · split
            · rfl
            · rfl
  · intro fuel scenario video_path
    unfold verifySingle
    rw [processingWait_stuck stuckEnv.get (fun _ => rfl)
      (fun _ => (by decide : stuckHandle.name.getD "" ≠ "")) fuel 0
      stuckEnv.upload rfl (by decide)]
  · rfl

/-- A render environment whose operations never complete. -/
def neverDoneEnv : VideoEnv Unit :=
  { fileExists := fun _ => false,
    launch := fun _ => Except.ok (),
    poll := fun _ => Except.ok (),
    opDone := fun _ => false,
    save := fun _ => Except.ok () }

/-- With a never-completing operation, the poll loop never exits. -/
theorem pollLoop_stuck :
    ∀ (fuel : Nat) (p : PendingVideo Unit), p.done = false →
      (pollLoop neverDoneEnv fuel [p]).1 = none := by
  intro fuel
  induction fuel with
  | zero =>
      intro p hp
      simp [pollLoop, hp]
  | succ n ih =>
      intro p hp
      have hall : ([p].all fun q => q.done) = false := by simp [hp]
      simp only [pollLoop, hall, Bool.false_eq_true, if_false]
      have hsw : pollSweep neverDoneEnv [p]
          = ([{ p with operation := () }], 1) := by
        simp [pollSweep, hp, neverDoneEnv]
      rw [hsw]
      have hrec := ih { p with operation := () } hp
      cases hloop : pollLoop neverDoneEnv n [{ p with operation := () }] with
      | mk res m =>
          rw [hloop] at hrec
          simp at hrec
          simp [hloop, hrec]

/-- C3 (code finding): neither bounded wait exists in the source — the
video pipeline's poll loop runs forever on a never-completing render
operation (no elapsed-time ceiling marks pending operations failed),
and the verifier's processing wait runs forever on an upload that
stays "PROCESSING" (no time budget, no timeout error). -/
theorem no_bounded_waits :
    (∀ (fuel : Nat) (sid path : String),
      (pollLoop neverDoneEnv fuel
        [{ scenario_id := sid, operation := (), output_path := path }]).1
        = none)
    ∧ (∀ fuel k : Nat,
        processingWait (fun _ => stuckHandle) fuel k stuckHandle = none) :=
  ⟨fun fuel sid path => pollLoop_stuck fuel
      { scenario_id := sid, operation := (), output_path := path } rfl,
    fun fuel k => processingWait_stuck (fun _ => stuckHandle)
      (fun _ => rfl)
      (fun _ => (by decide : stuckHandle.name.getD "" ≠ "")) fuel k
      stuckHandle rfl (by decide)⟩

end WorldReward
